import Mathlib

/-!
# Verification of the Scout search engine's indexing and retrieval core

Shallow embedding of the Python sources of the Scout-Search-Engine repository
(`search_engine.py`, `add_document.py`, `build_complete_lexicons.py`,
`build_forward_index.py`, `build_inverted_index.py`) together with proofs about
the embedded definitions.

Modelling conventions:
* Text is `List Char`.  `str.lower()` and the regex classes are modelled on
  ASCII (`re` word characters are `[a-zA-Z0-9_]`); all counterexamples and
  witnesses below use pure-ASCII inputs, on which the model agrees with the
  Python `re` module.
* Python dicts with unique keys (routing table, barrels, postings, caches)
  are association lists; dict comprehensions built from entry lists
  (`token_to_id`, `doc_by_id`, ...) keep the *last* binding, as Python does.
* Float arithmetic is modelled exactly: values that stay rational are `ℚ`,
  BM25/boost scores involving `math.log` are `ℝ`.
* Python exceptions (`KeyError`, `ZeroDivisionError`, JSON parse errors,
  `ValueError` from `max()`/`int()`) are explicit error values.
-/

/-! ## Text normalization (`search_engine.py` / `add_document.py` lines 36-80) -/

/-- `'a' ≤ c ≤ 'z'`: a character matched by the regex class `[a-z]`. -/
def isAsciiLower (c : Char) : Bool := 'a' ≤ c && c ≤ 'z'

/-- A Python regex word character (`\w` with ASCII letters and digits): the
characters that block a `\b` word boundary. -/
def pyWordChar (c : Char) : Bool := c.isAlphanum || c == '_'

/-- `str.lower()`, modelled on ASCII: uppercase ASCII letters are shifted to
lowercase, every other character is kept. -/
def pyLower (c : Char) : Char :=
  if 'A' ≤ c && c ≤ 'Z' then Char.ofNat (c.toNat + 32) else c

/-- A `\b` boundary holds before/after a position whose neighbouring character
(`none` at the ends of the string) is not a word character. -/
def boundaryOk : Option Char → Bool
  | none => true
  | some c => !pyWordChar c

/-- Scanner for `re.findall(r"\b[a-z]+\b", text)`.  `acc = some (ok, run)`
means we are inside a maximal run `run` of lowercase letters whose left
neighbour was a boundary iff `ok`; `prevOk` records whether the character
just before the current position fails to be a word character (so a run
starting here would have a left `\b`).  A run is emitted exactly when both
its left and right neighbours are boundaries. -/
def wbAux (acc : Option (Bool × List Char)) (prevOk : Bool) :
    List Char → List (List Char)
  | [] =>
    match acc with
    | some (ok, run) => if ok then [run] else []
    | none => []
  | c :: cs =>
    if isAsciiLower c then
      match acc with
      | some (ok, run) => wbAux (some (ok, run ++ [c])) prevOk cs
      | none => wbAux (some (prevOk, [c])) prevOk cs
    else
      (match acc with
       | some (ok, run) => if ok && !pyWordChar c then [run] else []
       | none => []) ++ wbAux none (!pyWordChar c) cs

/-- `re.findall(r"\b[a-z]+\b", text)`: maximal runs of lowercase letters
whose neighbouring characters (if any) are not word characters. -/
def findall_wb (cs : List Char) : List (List Char) := wbAux none true cs

/-- Scanner for `re.findall(r"[a-z]+", text)`: like `wbAux` but with no
boundary conditions. -/
def plainAux (acc : Option (List Char)) : List Char → List (List Char)
  | [] =>
    match acc with
    | some run => [run]
    | none => []
  | c :: cs =>
    if isAsciiLower c then
      match acc with
      | some run => plainAux (some (run ++ [c])) cs
      | none => plainAux (some [c]) cs
    else
      (match acc with
       | some run => [run]
       | none => []) ++ plainAux none cs

/-- `re.findall(r"[a-z]+", text)`: all maximal runs of lowercase letters. -/
def findall_plain (cs : List Char) : List (List Char) := plainAux none cs

/-- `simple_stemmer` (identical in all three Python sources). -/
def simple_stemmer (w : List Char) : List Char :=
  if "ing".toList.isSuffixOf w && decide (w.length > 5) then w.take (w.length - 3)
  else if "ed".toList.isSuffixOf w && decide (w.length > 4) then w.take (w.length - 2)
  else if "es".toList.isSuffixOf w && decide (w.length > 4) then w.take (w.length - 2)
  else if "s".toList.isSuffixOf w && decide (w.length > 3) then w.take (w.length - 1)
  else w

/-- `COMPREHENSIVE_STOP_WORDS` of `search_engine.py` and `add_document.py`
(the full set of §6 of the specification: base English stop words, domain
words, and the post-stem universal tokens). -/
def STOP_FULL : List (List Char) :=
  ["the", "and", "in", "for", "with", "on", "at", "from", "by", "as", "is", "was",
   "are", "were", "be", "been", "have", "has", "had", "to", "of", "a", "an", "that",
   "this", "these", "those", "it", "its", "or", "but", "not", "what", "which", "who",
   "when", "where", "why", "how", "all", "any", "both", "each", "few", "more", "most",
   "other", "some", "such", "no", "nor", "only", "own", "same", "so", "than", "too",
   "very", "can", "will", "just", "should", "now", "player", "club", "team", "football",
   "soccer", "match", "game", "season", "league", "cup", "champions", "premier", "la",
   "bundesliga", "serie", "current", "main", "position", "nationality", "birth", "place",
   "comprehensive", "international", "performance", "transfermarkt", "injury",
   "summary", "market", "history", "database", "value",
   "data", "teammat", "sourc", "career", "assist", "app", "minut",
   "available", "national", "significant", "teammate", "transfer", "goal"].map
    String.toList

/-- `COMPREHENSIVE_STOP_WORDS` of `build_complete_lexicons.py`: only the base
English stop words and the domain words — it omits the "universal terms"
group present in the set used by `search_engine.py` and `add_document.py`. -/
def STOP_SMALL : List (List Char) :=
  ["the", "and", "in", "for", "with", "on", "at", "from", "by", "as", "is", "was",
   "are", "were", "be", "been", "have", "has", "had", "to", "of", "a", "an", "that",
   "this", "these", "those", "it", "its", "or", "but", "not", "what", "which", "who",
   "when", "where", "why", "how", "all", "any", "both", "each", "few", "more", "most",
   "other", "some", "such", "no", "nor", "only", "own", "same", "so", "than", "too",
   "very", "can", "will", "just", "should", "now", "player", "club", "team", "football",
   "soccer", "match", "game", "season", "league", "cup", "champions", "premier", "la",
   "bundesliga", "serie", "current", "main", "position", "nationality", "birth", "place"].map
    String.toList

/-- `normalize_and_tokenize` (`search_engine.py` lines 66-74, identical in
`add_document.py`): lowercase, extract `\b[a-z]+\b` matches, drop stop words
and words of length ≤ 2, stem the survivors. -/
def normalize_and_tokenize (text : List Char) : List (List Char) :=
  (findall_wb (text.map pyLower)).filterMap fun w =>
    if STOP_FULL.contains w || decide (w.length ≤ 2) then none
    else some (simple_stemmer w)

/-- `normalize_name_tokens` (`search_engine.py` lines 76-80): extract
`[a-z]+` matches of the lowered string and stem each one, with no stop-word
or length filter. -/
def normalize_name_tokens (value : List Char) : List (List Char) :=
  (findall_plain (value.map pyLower)).map simple_stemmer

/-! ## Index data model

Association-list embeddings of the JSON index files.  `positions` lists are
stored by the Python code but never consulted by any modelled operation
(ranking ignores them and the incremental writer does not produce them), so
they are omitted from the embedding. -/

/-- One entry of `lexicon_complete.json`: `{token, df, term_id}`. -/
structure LexEntry where
  token : List Char
  df : Nat
  term_id : Nat
deriving DecidableEq, Repr

/-- One entry of `forward_index_termid.json` (without the unused
`positions`): `terms` maps `term_id ↦ tf`. -/
structure ForwardDoc where
  player_id : Int
  player_name : List Char
  total_terms : Nat
  unique_terms : Nat
  terms : List (Nat × Nat)
deriving DecidableEq, Repr

/-- One posting `{tf: ...}` of a barrel. -/
structure Posting where
  tf : Nat
deriving DecidableEq, Repr

/-- One term entry of a barrel's `inverted_index`. -/
structure BarrelTerm where
  token : List Char
  df : Nat
  postings : List (Int × Posting)
deriving DecidableEq, Repr

/-- A barrel file: metadata plus the term-indexed inverted index. -/
structure Barrel where
  term_count : Nat
  posting_count : Nat
  barrel_name : List Char
  inverted_index : List (Nat × BarrelTerm)
deriving DecidableEq, Repr

/-- A barrel file on disk either parses to a `Barrel` or is corrupt
(unparseable JSON); an absent file is simply missing from the disk map. -/
inductive FileState where
  | corrupt : FileState
  | good : Barrel → FileState
deriving DecidableEq, Repr

/-- Dictionary read on an association list with unique keys (Python dicts:
routing table, barrels, postings, caches). -/
def dGet {κ ν : Type} [DecidableEq κ] : List (κ × ν) → κ → Option ν
  | [], _ => none
  | (k1, v1) :: rest, k => if k1 = k then some v1 else dGet rest k

/-- Dictionary write `d[k] = x`: update the first binding of `k` in place, or
append a new binding. -/
def dSet {κ ν : Type} [DecidableEq κ] : List (κ × ν) → κ → ν → List (κ × ν)
  | [], k, x => [(k, x)]
  | (k1, v1) :: rest, k, x =>
    if k1 = k then (k1, x) :: rest else (k1, v1) :: dSet rest k x

/-- Dictionary update of an existing key (no-op when the key is absent). -/
def dUpdate {κ ν : Type} [DecidableEq κ] : List (κ × ν) → κ → (ν → ν) → List (κ × ν)
  | [], _, _ => []
  | (k1, x) :: rest, k, f =>
    if k1 = k then (k1, f x) :: rest else (k1, x) :: dUpdate rest k f

/-- Lookup keeping the *last* binding: the semantics of a Python dict
comprehension built from an entry list with possibly repeated keys. -/
def lastGet {κ ν : Type} [DecidableEq κ] (l : List (κ × ν)) (k : κ) : Option ν :=
  dGet l.reverse k

/-- `collections.defaultdict(int)` frequency count, in insertion order:
`for token in tokens: term_freq[token] += 1`. -/
def bumpCount {α : Type} [DecidableEq α] : List (α × Nat) → α → List (α × Nat)
  | [], t => [(t, 1)]
  | (k, v) :: rest, t =>
    if k = t then (k, v + 1) :: rest else (k, v) :: bumpCount rest t

/-- Term-frequency table of a token stream. -/
def countTokens {α : Type} [DecidableEq α] (toks : List α) : List (α × Nat) :=
  toks.foldl bumpCount []

/-- Insert into a Python `set` modelled as a first-insertion-ordered
duplicate-free list. -/
def dedupInsert {α : Type} [DecidableEq α] (l : List α) (x : α) : List α :=
  if x ∈ l then l else l ++ [x]

/-! ## Incremental writer (`add_document.py`) -/

/-- The input record of `add_document` (`player_data`): `player_id` is `none`
when the field is absent. -/
structure PlayerData where
  player_id : Option Int
  player_name : List Char
  detailed_content : List Char

/-- The in-memory indexes plus the barrel files on disk (`indexes` as built
by `load_indexes`, together with the `barrels/` directory). -/
structure Indexes where
  lexicon : List LexEntry
  max_term_id : Nat
  forward_index : List ForwardDoc
  term_to_barrel : List (Nat × List Char)
  disk : List (List Char × FileState)
deriving DecidableEq, Repr

/-- The distinct failure modes of `add_document`: the three returned error
dicts, plus the uncaught Python exceptions (`ValueError` from `max()` on an
empty routing table, `ValueError`/`IndexError` from parsing a shard name,
and a JSON parse error on a barrel file). -/
inductive AddError where
  | missingFields : AddError
  | duplicate : AddError
  | emptyDoc : AddError
  | emptyRouting : AddError
  | badBarrelName : AddError
  | corruptShard : List Char → AddError
deriving DecidableEq, Repr

/-- The statistics dict returned by a successful `add_document`. -/
structure AddStats where
  total_terms : Nat
  unique_terms : Nat
  new_tokens_added : Nat
  barrels_updated : Nat
deriving DecidableEq, Repr

/-- `int(s)` on a decimal string (no sign, no whitespace): `none` models the
`ValueError`/`IndexError` exceptions. -/
def pyInt (ds : List Char) : Option Nat :=
  if ds.isEmpty || !ds.all (fun c => c.isDigit) then none
  else some (ds.foldl (fun a c => a * 10 + (c.toNat - '0'.toNat)) 0)

/-- `int(bn.split('_')[1])`: parse the shard index out of a shard name. -/
def parseBarrelIdx (name : List Char) : Option Nat :=
  pyInt (((name.dropWhile (fun c => c ≠ '_')).drop 1).takeWhile (fun c => c ≠ '_'))

/-- Decimal digit emitter with explicit fuel (most significant digit
first). -/
def natDecimalAux : Nat → Nat → List Char
  | 0, _ => []
  | fuel + 1, n =>
    if n < 10 then [Nat.digitChar n]
    else natDecimalAux fuel (n / 10) ++ [Nat.digitChar (n % 10)]

/-- `str(n)` for a natural number. -/
def natDecimal (n : Nat) : List Char := natDecimalAux (n + 1) n

/-- `f"barrel_{idx:03d}"`. -/
def mkBarrelName (i : Nat) : List Char :=
  "barrel_".toList ++ List.replicate (3 - (natDecimal i).length) '0' ++ natDecimal i

/-- The freshly scaffolded barrel used when the target file does not exist. -/
def emptyBarrel (name : List Char) : Barrel :=
  { term_count := 0, posting_count := 0, barrel_name := name, inverted_index := [] }

/-- The in-place barrel update of `add_document` step 4: ensure a scaffold
entry for `tid`, insert the posting `pid ↦ tf`, refresh the barrel `df` from
the lexicon `df`, and recompute the barrel metadata. -/
def updateBarrel (b : Barrel) (tid : Nat) (tok : List Char) (dfLex : Nat)
    (tf : Nat) (pid : Int) : Barrel :=
  let inv0 := if (dGet b.inverted_index tid).isSome then b.inverted_index
              else b.inverted_index ++ [(tid, ⟨tok, dfLex, []⟩)]
  let inv1 := dUpdate inv0 tid fun e =>
    { e with postings := dSet e.postings pid ⟨tf⟩, df := dfLex }
  { b with inverted_index := inv1,
           term_count := inv1.length,
           posting_count := (inv1.map (fun te => te.2.postings.length)).sum }

/-- The last lexicon entry carrying a given token: the binding seen through
the `token_to_entry` dict. -/
def tokenEntryLast (lex : List LexEntry) (tok : List Char) : Option LexEntry :=
  lex.reverse.find? (fun e => e.token == tok)

/-- Increment the `df` of the binding of `tok` seen through
`token_to_entry` (the last entry with that token). -/
def bumpDfFirst : List LexEntry → List Char → List LexEntry
  | [], _ => []
  | e :: rest, tok =>
    if e.token = tok then { e with df := e.df + 1 } :: rest
    else e :: bumpDfFirst rest tok

/-- `token_to_entry[token]["df"] += 1` on the lexicon list. -/
def bumpDfLast (lex : List LexEntry) (tok : List Char) : List LexEntry :=
  (bumpDfFirst lex.reverse tok).reverse

/-- State threaded through the per-token barrel loop of `add_document`
step 4; `err` is set when the loop raised. -/
structure BarrelPass where
  routing : List (Nat × List Char)
  disk : List (List Char × FileState)
  updated : List (List Char)
  err : Option AddError

/-- Parse every shard name of the routing table (`int(bn.split('_')[1])`
over `set(term_to_barrel.values())`); `none` models the first raised
`ValueError`. -/
def parseAll : List (List Char) → Option (List Nat)
  | [] => some []
  | n :: ns =>
    match parseBarrelIdx n, parseAll ns with
    | some i, some is => some (i :: is)
    | _, _ => none

/-- One iteration of the barrel loop: resolve (or newly assign) the token's
shard, load the barrel file (scaffolding an absent one), insert the posting
and write the file back. -/
def processToken (pid : Int) (lex : List LexEntry)
    (rt : List (Nat × List Char)) (dk : List (List Char × FileState))
    (upd : List (List Char)) (tok : List Char) (tf : Nat) :
    Except AddError (List (Nat × List Char) × List (List Char × FileState) × List (List Char)) :=
  let entry := (tokenEntryLast lex tok).getD ⟨tok, 0, 0⟩
  let tid := entry.term_id
  let nameRes : Except AddError (List Char × List (Nat × List Char)) :=
    match dGet rt tid with
    | some name => .ok (name, rt)
    | none =>
      match parseAll (rt.map fun p => p.2) with
      | none => .error .badBarrelName
      | some [] => .error .emptyRouting
      | some (i :: is) =>
        let num_barrels := is.foldl Nat.max i + 1
        let name := mkBarrelName (tid % num_barrels)
        .ok (name, rt ++ [(tid, name)])
  match nameRes with
  | .error e => .error e
  | .ok (name, rt1) =>
    match dGet dk name with
    | some .corrupt => .error (.corruptShard name)
    | some (.good b) =>
      .ok (rt1, dSet dk name (.good (updateBarrel b tid tok entry.df tf pid)),
           dedupInsert upd name)
    | none =>
      .ok (rt1, dSet dk name (.good (updateBarrel (emptyBarrel name) tid tok entry.df tf pid)),
           dedupInsert upd name)

/-- The whole barrel loop, stopping at the first raised exception but keeping
the state mutated so far (the Python loop mutates `indexes` in place). -/
def processTokens (pid : Int) (lex : List LexEntry) :
    List (List Char × Nat) → List (Nat × List Char) →
    List (List Char × FileState) → List (List Char) → BarrelPass
  | [], rt, dk, upd => ⟨rt, dk, upd, none⟩
  | (tok, tf) :: rest, rt, dk, upd =>
    match processToken pid lex rt dk upd tok tf with
    | .error e => ⟨rt, dk, upd, some e⟩
    | .ok (rt1, dk1, upd1) => processTokens pid lex rest rt1 dk1 upd1

/-- One iteration of `add_document` step 2 over `(lexicon, next_term_id,
new_token_count)`: an existing token has its `df` incremented through
`token_to_entry`, a new token is appended with `df = 1` and the next term
id. -/
def lexStep (acc : List LexEntry × Nat × Nat) (tf : List Char × Nat) :
    List LexEntry × Nat × Nat :=
  if acc.1.any (fun e => e.token == tf.1) then
    (bumpDfLast acc.1 tf.1, acc.2.1, acc.2.2)
  else
    (acc.1 ++ [⟨tf.1, 1, acc.2.1⟩], acc.2.1 + 1, acc.2.2 + 1)

/-- Step 1 of `add_document`: the token stream of
`f"{player_name} {detailed_content}"`. -/
def addTokens (d : PlayerData) : List (List Char) :=
  normalize_and_tokenize (d.player_name ++ ' ' :: d.detailed_content)

/-- The `term_freq` table of `add_document`. -/
def addTermFreq (d : PlayerData) : List (List Char × Nat) :=
  countTokens (addTokens d)

/-- The step-2 lexicon fold of `add_document`: updated lexicon, next free
term id, and the count of newly interned tokens. -/
def addLexUpd (d : PlayerData) (st : Indexes) : List LexEntry × Nat × Nat :=
  (addTermFreq d).foldl lexStep (st.lexicon, st.max_term_id + 1, 0)

/-- The lexicon after `add_document` step 2. -/
def addLexicon (d : PlayerData) (st : Indexes) : List LexEntry :=
  (addLexUpd d st).1

/-- The term id `add_document` uses for a token of the new document (the
`token_to_entry` binding after step 2). -/
def addTermId (d : PlayerData) (st : Indexes) (tok : List Char) : Nat :=
  ((tokenEntryLast (addLexicon d st) tok).getD ⟨tok, 0, 0⟩).term_id

/-- `add_document(player_data, indexes)` (`add_document.py` lines 96-290,
steps split into the named definitions above).
Returns the state as left behind by the call (unchanged for the three early
error returns, partially mutated when the barrel loop raised) together with
the outcome. -/
def add_document (d : PlayerData) (st : Indexes) : Indexes × Except AddError AddStats :=
  match d.player_id with
  | none => (st, .error .missingFields)
  | some pid =>
    if pid = 0 || d.player_name.isEmpty then (st, .error .missingFields)
    else if st.forward_index.any (fun doc => doc.player_id == pid) then
      (st, .error .duplicate)
    else if (addTokens d).isEmpty then (st, .error .emptyDoc)
    else
      let term_freq := addTermFreq d
      let fentry : ForwardDoc :=
        ⟨pid, d.player_name, (addTokens d).length, term_freq.length,
          term_freq.map fun tf => (addTermId d st tf.1, tf.2)⟩
      let pass := processTokens pid (addLexicon d st) term_freq st.term_to_barrel st.disk []
      let st1 : Indexes :=
        { lexicon := addLexicon d st, max_term_id := (addLexUpd d st).2.1 - 1,
          forward_index := st.forward_index ++ [fentry],
          term_to_barrel := pass.routing, disk := pass.disk }
      match pass.err with
      | some e => (st1, .error e)
      | none =>
        (st1, .ok ⟨(addTokens d).length, term_freq.length, (addLexUpd d st).2.2,
          pass.updated.length⟩)

/-! ## Bulk build pipeline (`build_complete_lexicons.py`,
`build_forward_index.py`, `build_inverted_index.py`)

The bulk pipeline consumes `complete_player_profiles.json` records.  The
per-document token *set* built by `build_complete_lexicons.py` is modelled
as a duplicate-free list in first-occurrence order (Python iterates the set
in an unspecified order; every fact proved below is order-independent). -/

/-- A record of `complete_player_profiles.json`, restricted to the fields
the bulk pipeline reads. -/
structure BulkDoc where
  player_id : Int
  player_name : List Char
  detailed_content : List Char
  current_club : Option (List Char)

/-- The token set a document contributes to the bulk lexicon
(`build_complete_lexicons.py` lines 43-74): words of `detailed_content`
filtered against `STOP_SMALL` and stemmed, plus the words of
`metadata.current_club` under the same filter. -/
def bulk_doc_tokens (d : BulkDoc) : List (List Char) :=
  let fromText := (findall_wb (d.detailed_content.map pyLower)).filterMap fun w =>
    if STOP_SMALL.contains w || decide (w.length ≤ 2) then none
    else some (simple_stemmer w)
  let fromClub :=
    match d.current_club with
    | none => []
    | some club =>
      (findall_wb (club.map pyLower)).filterMap fun w =>
        if decide (w.length > 2) && !STOP_SMALL.contains w then
          some (simple_stemmer w)
        else none
  (fromText ++ fromClub).foldl dedupInsert []

/-- The document-frequency table accumulated over the corpus
(`lexicon_df`), in first-occurrence order. -/
def bulk_lexicon_df (docs : List BulkDoc) : List (List Char × Nat) :=
  docs.foldl (fun acc d => (bulk_doc_tokens d).foldl bumpCount acc) []

/-- Python's stable `list.sort(key=..., reverse=True)` (equivalently
`sorted(..., key=..., reverse=True)`): insertion sort placing an element
before the first earlier element whose key is ≤ its own. -/
def pySortDesc {α β : Type} [LinearOrder β] (key : α → β) (l : List α) : List α :=
  List.insertionSort (fun a b => key b ≤ key a) l

/-- `lexicon_complete.json` as written by `build_complete_lexicons.py`:
entries sorted by decreasing `df` (stably), then numbered `term_id = idx`. -/
def bulk_lexicon (docs : List BulkDoc) : List LexEntry :=
  (pySortDesc (fun p => p.2) (bulk_lexicon_df docs)).enum.map
    fun p => LexEntry.mk p.2.1 p.2.2 p.1

/-- One forward-index entry as built by `build_forward_index.py` lines
26-71: the *raw* words of the lowered `detailed_content` (no stop-word
filter, no stemming) are counted and then looked up in the lexicon's
`token_to_id`; words absent from the lexicon are silently dropped. -/
def bulk_forward_doc (lex : List LexEntry) (d : BulkDoc) : ForwardDoc :=
  let words := findall_wb (d.detailed_content.map pyLower)
  let token_tf := countTokens words
  let term_entries := token_tf.filterMap fun p =>
    match lastGet (lex.map fun e => (e.token, e.term_id)) p.1 with
    | none => none
    | some tid => some (tid, p.2)
  { player_id := d.player_id, player_name := d.player_name,
    terms := term_entries,
    total_terms := (term_entries.map fun t => t.2).sum,
    unique_terms := term_entries.length }

/-- The bulk forward index over a corpus. -/
def bulk_forward_index (docs : List BulkDoc) : List ForwardDoc :=
  docs.map (bulk_forward_doc (bulk_lexicon docs))

/-- The postings of one term id in the bulk inverted index
(`build_inverted_index.py` lines 28-41): the documents whose forward entry
carries the term, with their `tf`. -/
def bulk_postings (docs : List BulkDoc) (tid : Nat) : List (Int × Nat) :=
  (bulk_forward_index docs).foldl
    (fun acc d => acc ++ (d.terms.filterMap fun t =>
      if t.1 = tid then some (d.player_id, t.2) else none)) []

/-- Decidable equality of outcomes (used only to state and check concrete
evaluations of the embedded operations). -/
instance {ε α : Type} [DecidableEq ε] [DecidableEq α] : DecidableEq (Except ε α) := fun x y =>
  match x, y with
  | .error a, .error b =>
    if h : a = b then .isTrue (by rw [h])
    else .isFalse (by intro hh; cases hh; exact h rfl)
  | .ok a, .ok b =>
    if h : a = b then .isTrue (by rw [h])
    else .isFalse (by intro hh; cases hh; exact h rfl)
  | .error _, .ok _ => .isFalse (by intro hh; cases hh)
  | .ok _, .error _ => .isFalse (by intro hh; cases hh)

/-! ## Query engine (`search_engine.py`)

BM25 and boost scores involve `math.log` and are modelled in `ℝ`; every
quantity that stays rational (`avg_doc_len`, market values, maxima) is `ℚ`
so that all control-flow decisions the Python code makes on them remain
decidable.  Exceptions a search can raise are explicit: a barrel file whose
JSON does not parse, a `KeyError` on `doc_by_id`, and a `ZeroDivisionError`
when `avg_doc_len` is zero. -/

/-- The ways a `search` call can raise. -/
inductive SearchErr where
  | corruptShard : List Char → SearchErr
  | keyError : SearchErr
  | zeroDivision : SearchErr
  | valueError : SearchErr
deriving DecidableEq, Repr

/-- The static state `search_engine.py` loads at import time, plus the barrel
files on disk.  `market` is `player_market_value`, `profiles` is
`profile_length_by_id`. -/
structure SearchIndex where
  lexicon : List LexEntry
  forward_index : List ForwardDoc
  term_to_barrel : List (Nat × List Char)
  disk : List (List Char × FileState)
  market : List (Int × ℚ)
  profiles : List (Int × Nat)

/-- `token_to_id` (dict comprehension over the lexicon entries). -/
def token_to_id (lex : List LexEntry) (tok : List Char) : Option Nat :=
  lastGet (lex.map fun e => (e.token, e.term_id)) tok

/-- `term_document_frequency.get(tid, 0)`. -/
def term_df (lex : List LexEntry) (tid : Nat) : Nat :=
  (lastGet (lex.map fun e => (e.term_id, e.df)) tid).getD 0

/-- `doc_by_id.get(pid)` (dict comprehension over the forward index). -/
def doc_by_id (fwd : List ForwardDoc) (pid : Int) : Option ForwardDoc :=
  lastGet (fwd.map fun d => (d.player_id, d)) pid

/-- The distinct document ids of the forward index (the keys of
`doc_by_id`). -/
def distinctDocIds (fwd : List ForwardDoc) : List Int :=
  (fwd.map fun d => d.player_id).foldl dedupInsert []

/-- `N = len(doc_by_id)`. -/
def Nval (fwd : List ForwardDoc) : Nat := (distinctDocIds fwd).length

/-- `avg_doc_len = sum(d["total_terms"] for d in forward_index) / N if N > 0
else 0.0` — exact, since all inputs are integers. -/
def avgDocLen (fwd : List ForwardDoc) : ℚ :=
  if 0 < Nval fwd then ((fwd.map fun d => (d.total_terms : ℚ)).sum) / (Nval fwd : ℚ)
  else 0

/-- `" ".join(tokens)`. -/
def joinSpace (l : List (List Char)) : List Char := List.intercalate [' '] l

/-- `str.strip()` (whitespace trim on both sides). -/
def pyStrip (s : List Char) : List Char :=
  ((s.dropWhile Char.isWhitespace).reverse.dropWhile Char.isWhitespace).reverse

/-- Python's `needle in hay` substring test. -/
def isSubstr (needle : List Char) : List Char → Bool
  | [] => needle.isEmpty
  | c :: rest => needle.isPrefixOf (c :: rest) || isSubstr needle rest

/-- The per-document name metadata of `build_name_metadata`
(`search_engine.py` lines 82-91); the token set is the token list (set
membership and list membership agree). -/
structure NameMeta where
  tokens : List (List Char)
  normalized : List Char
  raw_lower : List Char

/-- `build_name_metadata(name)`. -/
def build_name_metadata (name : List Char) : NameMeta :=
  { tokens := normalize_name_tokens name,
    normalized := joinSpace (normalize_name_tokens name),
    raw_lower := name.map pyLower }

/-- `name_metadata.get(doc_id)`. -/
def metaOf (fwd : List ForwardDoc) (did : Int) : Option NameMeta :=
  (doc_by_id fwd did).map fun doc => build_name_metadata doc.player_name

/-- `tokens_to_term_ids` (`search_engine.py` lines 201-210): map tokens to
term ids, dropping unknown tokens and duplicate ids, keeping first-occurrence
order. -/
def tokens_to_term_ids (lex : List LexEntry) (toks : List (List Char)) : List Nat :=
  toks.foldl
    (fun acc tok =>
      match token_to_id lex tok with
      | none => acc
      | some tid => if acc.contains tid then acc else acc ++ [tid])
    []

/-- BM25 parameter `K1`. -/
noncomputable def K1 : ℝ := 1.2

/-- BM25 parameter `B`. -/
noncomputable def B : ℝ := 0.75

/-- `bm25_score(tf, df, doc_len, N, avg_doc_len)` (`search_engine.py` lines
214-217), at the default parameters `k1 = K1`, `b = B`. -/
noncomputable def bm25_score (tf df doc_len N avg_doc_len : ℝ) : ℝ :=
  Real.log ((N - df + 0.5) / (df + 0.5) + 1.0) *
    (tf * (K1 + 1) / (tf + K1 * (1 - B + B * (doc_len / avg_doc_len))))

/-- Scoring boost constants (`search_engine.py` lines 27-34). -/
noncomputable def NAME_TOKEN_WEIGHT : ℝ := 0.75

/-- `NAME_PREFIX_BONUS`. -/
noncomputable def NAME_PREFIX_BONUS : ℝ := 1.25

/-- `EXACT_NAME_BONUS`. -/
noncomputable def EXACT_NAME_BONUS : ℝ := 3.0

/-- `RAW_SUBSTRING_BONUS`. -/
noncomputable def RAW_SUBSTRING_BONUS : ℝ := 0.25

/-- `MARKET_VALUE_WEIGHT`. -/
noncomputable def MARKET_VALUE_WEIGHT : ℝ := 12.0

/-- `PROFILE_LENGTH_WEIGHT`. -/
noncomputable def PROFILE_LENGTH_WEIGHT : ℝ := 4.0

/-- `NON_NAME_MATCH_PENALTY`. -/
noncomputable def NON_NAME_MATCH_PENALTY : ℝ := 1.5

/-- The barrel cache (`barrel_cache`), an insertion-ordered dict. -/
abbrev Cache := List (List Char × Barrel)

/-- `MAX_CACHED_BARRELS`. -/
def MAX_CACHED_BARRELS : Nat := 10

/-- `load_barrel` (`search_engine.py` lines 177-197): consult the cache; on
a miss read the file — an absent file is caught (`FileNotFoundError`) and
yields `none`, an unparseable one raises; on success evict the oldest cache
entry if the cache is full and insert. -/
def load_barrel (dk : List (List Char × FileState)) (cache : Cache)
    (name : List Char) : Except SearchErr (Option Barrel × Cache) :=
  match dGet cache name with
  | some b => .ok (some b, cache)
  | none =>
    match dGet dk name with
    | none => .ok (none, cache)
    | some .corrupt => .error (.corruptShard name)
    | some (.good b) =>
      let cache1 := if MAX_CACHED_BARRELS ≤ cache.length then cache.drop 1 else cache
      .ok (some b, cache1 ++ [(name, b)])

/-- The barrel-loading loop of `search` (lines 248-254): load every required
barrel, collecting the ones that exist. -/
def load_required (dk : List (List Char × FileState)) :
    List (List Char) → Cache → Except SearchErr (List (List Char × Barrel) × Cache)
  | [], cache => .ok ([], cache)
  | n :: ns, cache =>
    match load_barrel dk cache n with
    | .error e => .error e
    | .ok (none, cache1) => load_required dk ns cache1
    | .ok (some b, cache1) =>
      match load_required dk ns cache1 with
      | .error e => .error e
      | .ok (loaded, cache2) => .ok ((n, b) :: loaded, cache2)

/-- `scores[doc_id] += x` on a `defaultdict(float)`: add in place, or append
a new binding at the end. -/
noncomputable def addScore : List (Int × ℝ) → Int → ℝ → List (Int × ℝ)
  | [], did, x => [(did, x)]
  | (k, v) :: rest, did, x =>
    if k = did then (k, v + x) :: rest else (k, v) :: addScore rest did x

/-- The inner postings loop of `search` (lines 280-284): look up each
posting's document length (a missing document raises `KeyError`; a zero
`avg_doc_len` raises `ZeroDivisionError` inside `bm25_score`) and accumulate
its BM25 contribution. -/
noncomputable def scorePostings (fwd : List ForwardDoc) (N : Nat) (avg : ℚ)
    (df : Nat) : List (Int × Posting) → List (Int × ℝ) → Except SearchErr (List (Int × ℝ))
  | [], scores => .ok scores
  | (did, p) :: rest, scores =>
    match doc_by_id fwd did with
    | none => .error .keyError
    | some doc =>
      if avg = 0 then .error .zeroDivision
      else
        scorePostings fwd N avg df rest
          (addScore scores did
            (bm25_score (p.tf : ℝ) (df : ℝ) (doc.total_terms : ℝ) (N : ℝ) ((avg : ℚ) : ℝ)))

/-- The per-term scoring loop of `search` (lines 260-284): skip terms with
zero df, unrouted terms, terms whose barrel is not loaded and terms absent
from their barrel; score the postings of the rest. -/
noncomputable def scoreTerms (lex : List LexEntry) (fwd : List ForwardDoc)
    (routing : List (Nat × List Char)) (loaded : List (List Char × Barrel))
    (N : Nat) (avg : ℚ) :
    List Nat → List (Int × ℝ) → Except SearchErr (List (Int × ℝ))
  | [], scores => .ok scores
  | tid :: rest, scores =>
    let df := term_df lex tid
    if df = 0 then scoreTerms lex fwd routing loaded N avg rest scores
    else
      match dGet routing tid with
      | none => scoreTerms lex fwd routing loaded N avg rest scores
      | some name =>
        if name.isEmpty then scoreTerms lex fwd routing loaded N avg rest scores
        else
          match dGet loaded name with
          | none => scoreTerms lex fwd routing loaded N avg rest scores
          | some b =>
            match dGet b.inverted_index tid with
            | none => scoreTerms lex fwd routing loaded N avg rest scores
            | some td =>
              match scorePostings fwd N avg df td.postings scores with
              | .error e => .error e
              | .ok scores1 => scoreTerms lex fwd routing loaded N avg rest scores1

/-- `max(l, default=0)`. -/
def pyMaxD0Q (l : List ℚ) : ℚ :=
  match l with
  | [] => 0
  | x :: xs => xs.foldl max x

/-- `max(l, default=0)` on naturals. -/
def pyMaxD0N (l : List Nat) : Nat :=
  match l with
  | [] => 0
  | x :: xs => xs.foldl max x

/-- `max_market_value`. -/
def max_market_value (st : SearchIndex) : ℚ := pyMaxD0Q (st.market.map fun p => p.2)

/-- `market_value_log_max = log1p(max) if max > 0 else 1.0`. -/
noncomputable def market_value_log_max (st : SearchIndex) : ℝ :=
  if 0 < max_market_value st then Real.log (1 + (max_market_value st : ℝ)) else 1

/-- `max_profile_length`. -/
def max_profile_length (st : SearchIndex) : Nat := pyMaxD0N (st.profiles.map fun p => p.2)

/-- `profile_length_log_max = log1p(max) if max > 0 else 1.0`. -/
noncomputable def profile_length_log_max (st : SearchIndex) : ℝ :=
  if 0 < max_profile_length st then Real.log (1 + (max_profile_length st : ℝ)) else 1

/-- The market-value boost of one name-matched document (`search_engine.py`
lines 321-323): `math.log1p(value)` raises `ValueError` when
`value ≤ -1`, and `load_market_values` accepts any float. -/
noncomputable def marketBoost (st : SearchIndex) (did : Int) : Except SearchErr ℝ :=
  match dGet st.market did with
  | none => .ok 0
  | some v =>
    if v = 0 then .ok 0
    else if 0 < market_value_log_max st then
      if v ≤ -1 then .error .valueError
      else .ok (MARKET_VALUE_WEIGHT * (Real.log (1 + (v : ℝ)) / market_value_log_max st))
    else .ok 0

/-- The profile-length boost of one name-matched document (lines 325-327);
profile lengths are string lengths, so `math.log1p` is always defined
here. -/
noncomputable def profileBoost (st : SearchIndex) (did : Int) : ℝ :=
  match dGet st.profiles did with
  | none => 0
  | some len =>
    if len = 0 then 0
    else if 0 < profile_length_log_max st then
      PROFILE_LENGTH_WEIGHT * (Real.log (1 + (len : ℝ)) / profile_length_log_max st)
    else 0

/-- The metadata boost of one accumulated document (`search_engine.py`
lines 292-327): name-token hits, exact/prefix/raw-substring name matches,
the non-name-match penalty, and the valuation/profile-length boosts gated by
a name match; the valuation boost can raise. -/
noncomputable def computeBoost (st : SearchIndex) (query_tokens : List (List Char))
    (query_name : List Char) (raw_query_lower : List Char) (did : Int) :
    Except SearchErr ℝ :=
  match metaOf st.forward_index did with
  | none => .ok (if !query_tokens.isEmpty then -NON_NAME_MATCH_PENALTY else 0)
  | some meta =>
    let match_count := query_tokens.countP fun tok => meta.tokens.contains tok
    let tokenHit := !query_tokens.isEmpty && decide (0 < match_count)
    let exactHit := !query_name.isEmpty && decide (meta.normalized = query_name)
    let prefixHit := !query_name.isEmpty && !decide (meta.normalized = query_name) &&
      query_name.isPrefixOf meta.normalized
    let rawHit := !raw_query_lower.isEmpty && isSubstr raw_query_lower meta.raw_lower
    let hasMatch := tokenHit || exactHit || prefixHit || rawHit
    let base :=
      (if tokenHit then NAME_TOKEN_WEIGHT * (match_count : ℝ) else 0) +
      (if exactHit then EXACT_NAME_BONUS else 0) +
      (if prefixHit then NAME_PREFIX_BONUS else 0) +
      (if rawHit then RAW_SUBSTRING_BONUS else 0) +
      (if !hasMatch && !query_tokens.isEmpty then -NON_NAME_MATCH_PENALTY else 0)
    if hasMatch then
      match marketBoost st did with
      | .error e => .error e
      | .ok mv => .ok (base + mv + profileBoost st did)
    else .ok base

/-- The body of the boost loop of `search` (lines 292-329), over the score
entries in accumulation order, stopping at the first raised exception. -/
noncomputable def boostPassAux (st : SearchIndex) (query_tokens : List (List Char))
    (query_name raw_query_lower : List Char) :
    List (Int × ℝ) → Except SearchErr (List (Int × ℝ))
  | [] => .ok []
  | p :: rest =>
    match computeBoost st query_tokens query_name raw_query_lower p.1 with
    | .error e => .error e
    | .ok bst =>
      match boostPassAux st query_tokens query_name raw_query_lower rest with
      | .error e => .error e
      | .ok rest1 => .ok ((p.1, p.2 + bst) :: rest1)

/-- The boost pass of `search` (lines 287-329): add each accumulated
document's boost to its score, in place. -/
noncomputable def boostPass (st : SearchIndex) (q : List Char)
    (query_tokens : List (List Char)) (scores : List (Int × ℝ)) :
    Except SearchErr (List (Int × ℝ)) :=
  boostPassAux st query_tokens (joinSpace (normalize_name_tokens q))
    (pyStrip (q.map pyLower)) scores

/-- `sorted(scores.items(), key=lambda x: x[1], reverse=True)[:top_k]`
followed by `enumerate(ranked, start=1)` (`search_engine.py` lines 336-339):
stable descending sort on the score, truncation to `top_k`, and 1-based rank
numbering. -/
def rank_results {β : Type} [LinearOrder β] (scores : List (Int × β)) (top_k : Nat) :
    List (Nat × Int × β) :=
  ((pySortDesc (fun p => p.2) scores).take top_k).enum.map fun p => (p.1 + 1, p.2)

/-- One search result row (lines 341-348). -/
structure SResult where
  rank : Nat
  doc_id : Int
  player_name : List Char
  score : ℝ
  market_value : Option ℚ

/-- The result-building loop (lines 338-348): a `doc_by_id` lookup per ranked
document. -/
noncomputable def buildResults (fwd : List ForwardDoc) (market : List (Int × ℚ)) :
    List (Nat × Int × ℝ) → Except SearchErr (List SResult)
  | [] => .ok []
  | (r, did, s) :: rest =>
    match doc_by_id fwd did with
    | none => .error .keyError
    | some doc =>
      match buildResults fwd market rest with
      | .error e => .error e
      | .ok results =>
        .ok (⟨r, did, doc.player_name, s, dGet market did⟩ :: results)

/-- The set of barrels required by a list of term ids (`search_engine.py`
lines 239-243), as a first-occurrence-ordered duplicate-free list. -/
def requiredBarrels (routing : List (Nat × List Char)) (term_ids : List Nat) :
    List (List Char) :=
  (term_ids.filterMap fun tid =>
    match dGet routing tid with
    | none => none
    | some name => if name.isEmpty then none else some name).foldl dedupInsert []

/-- `search(query, top_k)` (`search_engine.py` lines 221-372), returning the
result list and the barrel cache it leaves behind. -/
noncomputable def search (q : List Char) (top_k : Nat) (st : SearchIndex)
    (cache : Cache) : Except SearchErr (List SResult × Cache) :=
  let query_tokens := normalize_and_tokenize q
  let term_ids := tokens_to_term_ids st.lexicon query_tokens
  if term_ids.isEmpty then .ok ([], cache)
  else
    match load_required st.disk (requiredBarrels st.term_to_barrel term_ids) cache with
    | .error e => .error e
    | .ok (loaded, cache1) =>
      match scoreTerms st.lexicon st.forward_index st.term_to_barrel loaded
          (Nval st.forward_index) (avgDocLen st.forward_index) term_ids [] with
      | .error e => .error e
      | .ok scores =>
        match (if scores.isEmpty then .ok scores
               else boostPass st q query_tokens scores : Except SearchErr (List (Int × ℝ))) with
        | .error e => .error e
        | .ok scores1 =>
          if scores1.isEmpty then .ok ([], cache1)
          else
            match buildResults st.forward_index st.market (rank_results scores1 top_k) with
            | .error e => .error e
            | .ok results => .ok (results, cache1)

/-! ## Analyzer lemmas -/

/-- A lowercase letter is left unchanged by `str.lower()`. -/
theorem pyLower_fix {c : Char} (h1 : 'a' ≤ c) : pyLower c = c := by
  unfold pyLower
  split
  · next hcond =>
    exfalso
    have h2 : c ≤ 'Z' := by
      simp only [Bool.and_eq_true, decide_eq_true_eq] at hcond
      exact hcond.2
    exact absurd (Char.le_trans h1 h2) (by decide)
  · rfl

/-- An all-lowercase string is a fixed point of `str.lower()`. -/
theorem map_pyLower_of_lower {t : List Char} (h : t.all isAsciiLower) :
    t.map pyLower = t := by
  induction t with
  | nil => rfl
  | cons c cs ih =>
    simp only [List.all_cons, Bool.and_eq_true] at h
    have h1 : 'a' ≤ c := by
      have := h.1
      simp only [isAsciiLower, Bool.and_eq_true, decide_eq_true_eq] at this
      exact this.1
    simp [pyLower_fix h1, ih h.2]

/-- Every match of `\b[a-z]+\b` is a nonempty all-lowercase string
(generalized over the scanner's accumulator). -/
theorem mem_wbAux {w : List Char} :
    ∀ (l : List Char) (acc : Option (Bool × List Char)) (prevOk : Bool),
      w ∈ wbAux acc prevOk l →
      (∀ ok run, acc = some (ok, run) → run ≠ [] ∧ run.all isAsciiLower) →
      w ≠ [] ∧ w.all isAsciiLower := by
  intro l
  induction l with
  | nil =>
    intro acc prevOk hw hacc
    match acc with
    | some (ok, run) =>
      simp only [wbAux] at hw
      split at hw
      · simp only [List.mem_singleton] at hw
        subst hw
        exact hacc _ _ rfl
      · simp at hw
    | none => simp [wbAux] at hw
  | cons c cs ih =>
    intro acc prevOk hw hacc
    simp only [wbAux] at hw
    split at hw
    · next hc =>
      match acc with
      | some (ok, run) =>
        refine ih _ _ hw ?_
        intro ok1 run1 heq
        cases heq
        have := hacc ok run rfl
        constructor
        · simp
        · simp [List.all_append, this.2, hc]
      | none =>
        refine ih _ _ hw ?_
        intro ok1 run1 heq
        cases heq
        exact ⟨by simp, by simp [hc]⟩
    · next hc =>
      rw [List.mem_append] at hw
      rcases hw with hw | hw
      · match acc with
        | some (ok, run) =>
          simp only at hw
          split at hw
          · simp only [List.mem_singleton] at hw
            subst hw
            exact hacc _ _ rfl
          · simp at hw
        | none => simp at hw
      · exact ih _ _ hw (by intro ok run h; cases h)

/-- Every match of `\b[a-z]+\b` is nonempty and all-lowercase. -/
theorem mem_findall_wb {w text : List Char} (h : w ∈ findall_wb text) :
    w ≠ [] ∧ w.all isAsciiLower :=
  mem_wbAux text none true h (by intro ok run h; cases h)

/-- Scanning an all-lowercase remainder extends the open run to the end of
the string. -/
theorem wbAux_of_all_lower {l : List Char} (h : l.all isAsciiLower) :
    ∀ (ok : Bool) (run : List Char) (prevOk : Bool),
      wbAux (some (ok, run)) prevOk l = if ok then [run ++ l] else [] := by
  induction l with
  | nil => intro ok run prevOk; simp [wbAux]
  | cons c cs ih =>
    intro ok run prevOk
    simp only [List.all_cons, Bool.and_eq_true] at h
    simp only [wbAux, h.1, if_true]
    rw [ih h.2]
    split <;> simp

/-- `\b[a-z]+\b` on a nonempty all-lowercase string matches exactly the whole
string. -/
theorem findall_wb_all_lower {t : List Char} (hne : t ≠ [])
    (h : t.all isAsciiLower) : findall_wb t = [t] := by
  match t, hne with
  | c :: cs, _ =>
    simp only [List.all_cons, Bool.and_eq_true] at h
    simp only [findall_wb, wbAux, h.1, if_true]
    rw [wbAux_of_all_lower h.2]
    simp

/-- `filterMap` of an `if`-guard is a `filter` followed by a `map`. -/
theorem filterMap_guard_eq {α β : Type} (p : α → Bool) (f : α → β) (l : List α) :
    (l.filterMap fun w => if p w then none else some (f w)) =
      (l.filter fun w => !p w).map f := by
  induction l with
  | nil => rfl
  | cons x xs ih =>
    by_cases hx : p x
    · simp [List.filterMap_cons, List.filter_cons, hx, ih]
    · simp [List.filterMap_cons, List.filter_cons, hx, ih]

/-- The stemmer never shortens a word of length ≥ 3 below length 3. -/
theorem simple_stemmer_length {w : List Char} (h : 2 < w.length) :
    2 < (simple_stemmer w).length := by
  unfold simple_stemmer
  split
  · next hc =>
    simp only [Bool.and_eq_true, decide_eq_true_eq] at hc
    simp only [List.length_take]
    omega
  · split
    · next hc =>
      simp only [Bool.and_eq_true, decide_eq_true_eq] at hc
      simp only [List.length_take]
      omega
    · split
      · next hc =>
        simp only [Bool.and_eq_true, decide_eq_true_eq] at hc
        simp only [List.length_take]
        omega
      · split
        · next hc =>
          simp only [Bool.and_eq_true, decide_eq_true_eq] at hc
          simp only [List.length_take]
          omega
        · exact h

/-- The stemmer's output is a prefix of its input, so any character-wise
property is preserved. -/
theorem simple_stemmer_all {p : Char → Bool} {w : List Char} (h : w.all p) :
    (simple_stemmer w).all p := by
  have htake : ∀ n, (w.take n).all p := by
    intro n
    rw [List.all_eq_true] at h ⊢
    intro x hx
    exact h x (List.take_subset n w hx)
  unfold simple_stemmer
  split
  · exact htake _
  · split
    · exact htake _
    · split
      · exact htake _
      · split
        · exact htake _
        · exact h

/-- Characterization of the tokens emitted by `normalize_and_tokenize`:
each comes from a `\b[a-z]+\b` match that survived the stop-word and length
filters and was then stemmed. -/
theorem mem_normalize_and_tokenize {t text : List Char}
    (h : t ∈ normalize_and_tokenize text) :
    ∃ w, w ∈ findall_wb (text.map pyLower) ∧ STOP_FULL.contains w = false ∧
      2 < w.length ∧ simple_stemmer w = t := by
  unfold normalize_and_tokenize at h
  rw [List.mem_filterMap] at h
  obtain ⟨w, hw, hcond⟩ := h
  by_cases hc : (STOP_FULL.contains w || decide (w.length ≤ 2)) = true
  · rw [if_pos hc] at hcond; cases hcond
  · rw [if_neg hc] at hcond
    simp only [Bool.or_eq_true, decide_eq_true_eq, not_or, Bool.not_eq_true] at hc
    refine ⟨w, hw, hc.1, by omega, by injection hcond⟩

/-- Emitted tokens are nonempty, all-lowercase and longer than two
characters. -/
theorem normalize_token_shape {t text : List Char}
    (h : t ∈ normalize_and_tokenize text) :
    t ≠ [] ∧ t.all isAsciiLower ∧ 2 < t.length := by
  obtain ⟨w, hw, -, hlen, hstem⟩ := mem_normalize_and_tokenize h
  obtain ⟨-, hlow⟩ := mem_findall_wb hw
  have hlen2 : 2 < t.length := hstem ▸ simple_stemmer_length hlen
  have hlow2 : t.all isAsciiLower := hstem ▸ simple_stemmer_all hlow
  exact ⟨by intro hh; rw [hh] at hlen2; simp at hlen2, hlow2, hlen2⟩

/-- Running the analyzer on a nonempty all-lowercase string that is not a
stop word, is longer than two characters and is a fixed point of the stemmer
returns exactly that string. -/
theorem normalize_and_tokenize_self {t : List Char} (hne : t ≠ [])
    (hlow : t.all isAsciiLower) (hlen : 2 < t.length)
    (hstop : STOP_FULL.contains t = false) (hstem : simple_stemmer t = t) :
    normalize_and_tokenize t = [t] := by
  have hmem : t ∉ STOP_FULL := by simpa using hstop
  unfold normalize_and_tokenize
  rw [map_pyLower_of_lower hlow, findall_wb_all_lower hne hlow]
  simp [hmem, hstem, Nat.not_le_of_lt hlen, List.filterMap]

/-! ## Claim C4: tokenization procedure -/

/-- The tokenization procedure exactly as the specification words it
("extract maximal runs of ASCII letters, regex semantics `[a-z]+` on a
lowered string; discard any word of length ≤ 2 or present in the stop-word
set; apply the stemmer"). -/
def analyzer_claimed_pipeline (text : List Char) : List (List Char) :=
  ((findall_plain (text.map pyLower)).filter fun w =>
    !(STOP_FULL.contains w || decide (w.length ≤ 2))).map simple_stemmer

/-- The same staged pipeline with the regex the code actually uses,
`\b[a-z]+\b`: letter runs adjacent to another word character (digit,
underscore) are not extracted. -/
def analyzer_boundary_pipeline (text : List Char) : List (List Char) :=
  ((findall_wb (text.map pyLower)).filter fun w =>
    !(STOP_FULL.contains w || decide (w.length ≤ 2))).map simple_stemmer

/-- C4, counterexample: on `"messi10"` the code's tokenizer
(`re.findall(r"\b[a-z]+\b", ...)`) produces no token at all, while the
claimed `[a-z]+` pipeline would extract `"messi"` — the letter run adjacent
to a digit is *not* extracted. -/
theorem C4_tokenize_counterexample :
    normalize_and_tokenize ("messi10".toList) = [] ∧
      analyzer_claimed_pipeline ("messi10".toList) = ["messi".toList] ∧
      ([] : List (List Char)) ≠ ["messi".toList] := by
  refine ⟨by decide, by decide, by decide⟩

/-- C4, amended: the analyzer lowercases the string, extracts the
`\b[a-z]+\b` matches of the lowered string (maximal lowercase-letter runs
bounded by word boundaries, so a run adjacent to a digit is dropped), then
discards words of length ≤ 2 or in the stop-word set, and finally stems each
survivor — in that order. -/
theorem C4_tokenize_amended (text : List Char) :
    normalize_and_tokenize text = analyzer_boundary_pipeline text := by
  unfold normalize_and_tokenize analyzer_boundary_pipeline
  exact filterMap_guard_eq _ _ _

/-! ## Claim C5: analyzer idempotence -/

/-- C5, counterexample: `"goal"` is a token the analyzer emits (from the
word `"goals"`, stemmed after the stop-word check), yet re-analyzing
`"goal"` yields `[]`, not `["goal"]` — the emitted token is itself a stop
word. -/
theorem C5_idempotence_counterexample :
    ("goal".toList ∈ normalize_and_tokenize ("goals".toList)) ∧
      normalize_and_tokenize ("goal".toList) ≠ ["goal".toList] ∧
      normalize_and_tokenize ("goal".toList) = [] := by
  refine ⟨by decide, by decide, by decide⟩

/-- C5, amended: re-analyzing an emitted token `t` reproduces `[t]`
provided `t` is a fixed point of the stemmer and is not itself a stop word
(both can fail: `analyze "dresses" = ["dress"]` but `stem "dress" =
"dres"`, and `analyze "goals" = ["goal"]` with `"goal"` a stop word). -/
theorem C5_idempotence_amended (s t : List Char)
    (hmem : t ∈ normalize_and_tokenize s)
    (hstem : simple_stemmer t = t)
    (hstop : STOP_FULL.contains t = false) :
    normalize_and_tokenize t = [t] := by
  obtain ⟨hne, hlow, hlen⟩ := normalize_token_shape hmem
  exact normalize_and_tokenize_self hne hlow hlen hstop hstem

/-- C5, witness: the amended idempotence at the emitted token `"zidane"`. -/
theorem C5_idempotence_witness :
    normalize_and_tokenize ("zidane".toList) = ["zidane".toList] :=
  C5_idempotence_amended ("zidane".toList) ("zidane".toList)
    (by decide) (by decide) (by decide)

/-! ## Claim C2: lexicon purity -/

/-- Membership in a Python-set insertion. -/
theorem mem_dedupInsert {α : Type} [DecidableEq α] {x y : α} {l : List α} :
    x ∈ dedupInsert l y ↔ x ∈ l ∨ x = y := by
  unfold dedupInsert
  split
  · next h =>
    constructor
    · exact Or.inl
    · rintro (hx | rfl)
      · exact hx
      · exact h
  · simp

/-- Membership in a fold of Python-set insertions. -/
theorem mem_foldl_dedupInsert {α : Type} [DecidableEq α] {x : α} :
    ∀ (l acc : List α), x ∈ l.foldl dedupInsert acc ↔ x ∈ acc ∨ x ∈ l := by
  intro l
  induction l with
  | nil => simp
  | cons y ys ih =>
    intro acc
    rw [List.foldl_cons, ih, mem_dedupInsert]
    simp only [List.mem_cons]
    tauto

/-- Tokens contributed to the bulk lexicon are all-lowercase, longer than
two characters, and stem from a word that passed the *small* stop list. -/
theorem mem_bulk_doc_tokens {d : BulkDoc} {t : List Char}
    (h : t ∈ bulk_doc_tokens d) :
    t.all isAsciiLower ∧ 2 < t.length ∧
      ∃ w, STOP_SMALL.contains w = false ∧ 2 < w.length ∧ simple_stemmer w = t := by
  unfold bulk_doc_tokens at h
  rw [mem_foldl_dedupInsert] at h
  have hsrc : ∃ w, w ∈ findall_wb (d.detailed_content.map pyLower) ∨
      (∃ club, d.current_club = some club ∧ w ∈ findall_wb (club.map pyLower)) ∧ True →
      True := ⟨[], by simp⟩
  clear hsrc
  rcases h with h | h
  · cases h
  · rw [List.mem_append] at h
    rcases h with h | h
    · rw [List.mem_filterMap] at h
      obtain ⟨w, hw, hcond⟩ := h
      by_cases hc : (STOP_SMALL.contains w || decide (w.length ≤ 2)) = true
      · rw [if_pos hc] at hcond; cases hcond
      · rw [if_neg hc] at hcond
        injection hcond with hcond
        simp only [Bool.or_eq_true, decide_eq_true_eq, not_or, Bool.not_eq_true] at hc
        obtain ⟨-, hlow⟩ := mem_findall_wb hw
        have hlen : 2 < w.length := by omega
        exact ⟨hcond ▸ simple_stemmer_all hlow, hcond ▸ simple_stemmer_length hlen,
          w, hc.1, hlen, hcond⟩
    · match hclub : d.current_club with
      | none => rw [hclub] at h; cases h
      | some club =>
        rw [hclub] at h
        rw [List.mem_filterMap] at h
        obtain ⟨w, hw, hcond⟩ := h
        by_cases hc : (decide (w.length > 2) && !STOP_SMALL.contains w) = true
        · rw [if_pos hc] at hcond
          injection hcond with hcond
          simp only [Bool.and_eq_true, decide_eq_true_eq, Bool.not_eq_true'] at hc
          obtain ⟨-, hlow⟩ := mem_findall_wb hw
          exact ⟨hcond ▸ simple_stemmer_all hlow, hcond ▸ simple_stemmer_length hc.1,
            w, hc.2, hc.1, hcond⟩
        · rw [if_neg hc] at hcond; cases hcond

/-- `bumpDfFirst` does not change the token column. -/
theorem bumpDfFirst_tokens (tok : List Char) :
    ∀ (lex : List LexEntry), (bumpDfFirst lex tok).map (fun e => e.token) =
      lex.map (fun e => e.token) := by
  intro lex
  induction lex with
  | nil => rfl
  | cons e rest ih =>
    unfold bumpDfFirst
    split
    · simp
    · simp [ih]

/-- `bumpDfLast` does not change the token column. -/
theorem bumpDfLast_tokens (lex : List LexEntry) (tok : List Char) :
    (bumpDfLast lex tok).map (fun e => e.token) = lex.map (fun e => e.token) := by
  unfold bumpDfLast
  rw [List.map_reverse, bumpDfFirst_tokens, ← List.map_reverse, List.reverse_reverse]

/-- Every token in the lexicon column after the step-2 fold is an old token
or one of the processed tokens. -/
theorem lexfold_tokens {t : List Char} :
    ∀ (tfs : List (List Char × Nat)) (acc : List LexEntry × Nat × Nat),
      t ∈ (tfs.foldl lexStep acc).1.map (fun e => e.token) →
      t ∈ acc.1.map (fun e => e.token) ∨ t ∈ tfs.map (fun p => p.1) := by
  intro tfs
  induction tfs with
  | nil => intro acc h; exact Or.inl h
  | cons p rest ih =>
    intro acc h
    rw [List.foldl_cons] at h
    rcases ih _ h with h1 | h1
    · unfold lexStep at h1
      split at h1
      · rw [bumpDfLast_tokens] at h1
        exact Or.inl h1
      · simp only [List.map_append, List.mem_append, List.map_cons, List.map_nil,
          List.mem_singleton] at h1
        rcases h1 with h1 | h1
        · exact Or.inl h1
        · exact Or.inr (by simp [h1])
    · exact Or.inr (List.mem_cons_of_mem _ h1)

/-- A key of the frequency table is one of the counted elements. -/
theorem mem_bumpCount_keys {α : Type} [DecidableEq α] {k t : α} :
    ∀ (acc : List (α × Nat)), k ∈ (bumpCount acc t).map (fun p => p.1) →
      k ∈ acc.map (fun p => p.1) ∨ k = t := by
  intro acc
  induction acc with
  | nil => intro h; simp only [bumpCount, List.map_cons, List.map_nil,
      List.mem_singleton] at h; exact Or.inr h
  | cons q rest ih =>
    intro h
    unfold bumpCount at h
    split at h
    · simp only [List.map_cons, List.mem_cons] at h
      rcases h with h | h
      · exact Or.inl (by simp [h])
      · exact Or.inl (by simp [h])
    · simp only [List.map_cons, List.mem_cons] at h
      rcases h with h | h
      · exact Or.inl (by simp [h])
      · rcases ih h with h1 | h1
        · exact Or.inl (List.mem_cons_of_mem _ h1)
        · exact Or.inr h1

/-- The keys of `countTokens toks` all occur in `toks`. -/
theorem mem_countTokens_keys {α : Type} [DecidableEq α] {k : α} {toks : List α}
    (h : k ∈ (countTokens toks).map (fun p => p.1)) : k ∈ toks := by
  unfold countTokens at h
  suffices hgen : ∀ (l : List α) (acc : List (α × Nat)),
      k ∈ (l.foldl bumpCount acc).map (fun p => p.1) →
      k ∈ acc.map (fun p => p.1) ∨ k ∈ l by
    rcases hgen toks [] h with h1 | h1
    · simp at h1
    · exact h1
  intro l
  induction l with
  | nil => intro acc hh; exact Or.inl hh
  | cons x xs ih =>
    intro acc hh
    rw [List.foldl_cons] at hh
    rcases ih _ hh with h1 | h1
    · rcases mem_bumpCount_keys _ h1 with h2 | h2
      · exact Or.inl h2
      · exact Or.inr (by simp [h2])
    · exact Or.inr (List.mem_cons_of_mem _ h1)

/-- A minimal bootstrapped index: empty lexicon and forward index, a routing
table with one existing shard (the build pipeline must create at least one
barrel before any `add_document` call). -/
def bootIndexes : Indexes :=
  { lexicon := [], max_term_id := 0, forward_index := [],
    term_to_barrel := [(999, "barrel_000".toList)], disk := [] }

/-- A document whose body word `"goals"` stems to the stop word `"goal"`. -/
def goalsDoc : PlayerData :=
  { player_id := some 7, player_name := "Zidane".toList,
    detailed_content := "goals".toList }

/-- C2, counterexample: adding a document containing `"goals"` creates the
lexicon entry `"goal"` — a member of the §6 stop-word set — because the
stemmer runs *after* the stop-word filter. -/
theorem C2_purity_counterexample :
    ("goal".toList) ∈ ((add_document goalsDoc bootIndexes).1.lexicon.map fun e => e.token) ∧
      ("goal".toList) ∈ STOP_FULL := by
  refine ⟨by decide, by decide⟩

/-- C2, amended: every token produced for the lexicon — by the incremental
analyzer or by the bulk build — is all-lowercase ASCII and longer than two
characters, and stems from a word that was not in the respective pipeline's
*own* stop set (the bulk build checks the smaller `STOP_SMALL`); the stored,
stemmed token itself may be a stop word.  New lexicon entries written by
`add_document` are tokens of its input document. -/
theorem C2_lexicon_purity_amended :
    (∀ (text t : List Char), t ∈ normalize_and_tokenize text →
      t.all isAsciiLower ∧ 2 < t.length ∧
        ∃ w, STOP_FULL.contains w = false ∧ 2 < w.length ∧ simple_stemmer w = t) ∧
    (∀ (d : BulkDoc) (t : List Char), t ∈ bulk_doc_tokens d →
      t.all isAsciiLower ∧ 2 < t.length ∧
        ∃ w, STOP_SMALL.contains w = false ∧ 2 < w.length ∧ simple_stemmer w = t) ∧
    (∀ (d : PlayerData) (st : Indexes) (e : LexEntry),
      e ∈ (add_document d st).1.lexicon →
      e.token ∈ st.lexicon.map (fun e0 => e0.token) ∨
        (e.token.all isAsciiLower ∧ 2 < e.token.length)) := by
  refine ⟨?_, ?_, ?_⟩
  · intro text t h
    obtain ⟨w, hw, hstop, hlen, hstem⟩ := mem_normalize_and_tokenize h
    obtain ⟨-, hlow⟩ := mem_findall_wb hw
    exact ⟨hstem ▸ simple_stemmer_all hlow, hstem ▸ simple_stemmer_length hlen,
      w, hstop, hlen, hstem⟩
  · intro d t h
    exact mem_bulk_doc_tokens h
  · intro d st e he
    simp only [add_document] at he
    split at he
    · exact Or.inl (List.mem_map_of_mem _ he)
    · split at he
      · exact Or.inl (List.mem_map_of_mem _ he)
      · split at he
        · exact Or.inl (List.mem_map_of_mem _ he)
        · split at he
          · exact Or.inl (List.mem_map_of_mem _ he)
          · next pid hp1 hp2 htok =>
            have hlexmem : e.token ∈
                ((addTermFreq d).foldl lexStep
                  (st.lexicon, st.max_term_id + 1, 0)).1.map (fun e0 => e0.token) := by
              split at he
              · exact List.mem_map_of_mem _ he
              · exact List.mem_map_of_mem _ he
            rcases lexfold_tokens _ _ hlexmem with h1 | h1
            · exact Or.inl h1
            · have htoks : e.token ∈
                  normalize_and_tokenize (d.player_name ++ ' ' :: d.detailed_content) :=
                mem_countTokens_keys h1
              obtain ⟨w, hw, hstop, hlen, hstem⟩ := mem_normalize_and_tokenize htoks
              obtain ⟨-, hlow⟩ := mem_findall_wb hw
              exact Or.inr ⟨hstem ▸ simple_stemmer_all hlow,
                hstem ▸ simple_stemmer_length hlen⟩

/-- C2, witness: the amended purity statement instantiated at the emitted
token `"play"`, the bulk token `"runn"`, and the lexicon entry `"goal"`
created by a concrete `add_document` call. -/
theorem C2_purity_witness :
    (("play".toList).all isAsciiLower ∧ 2 < ("play".toList).length ∧
      ∃ w, STOP_FULL.contains w = false ∧ 2 < w.length ∧
        simple_stemmer w = "play".toList) ∧
    (("runn".toList).all isAsciiLower ∧ 2 < ("runn".toList).length ∧
      ∃ w, STOP_SMALL.contains w = false ∧ 2 < w.length ∧
        simple_stemmer w = "runn".toList) ∧
    ((⟨"goal".toList, 1, 2⟩ : LexEntry).token ∈
        bootIndexes.lexicon.map (fun e0 => e0.token) ∨
      ((⟨"goal".toList, 1, 2⟩ : LexEntry).token.all isAsciiLower ∧
        2 < (⟨"goal".toList, 1, 2⟩ : LexEntry).token.length)) :=
  ⟨C2_lexicon_purity_amended.1 ("plays".toList) ("play".toList) (by decide),
   C2_lexicon_purity_amended.2.1 ⟨1, "X".toList, "running".toList, none⟩
     ("runn".toList) (by decide),
   C2_lexicon_purity_amended.2.2 goalsDoc bootIndexes ⟨"goal".toList, 1, 2⟩
     (by decide)⟩

/-! ## Claim C7: duplicate-document atomicity -/

/-- An index already holding document 5. -/
def dupIndexes : Indexes :=
  { lexicon := [⟨"alpha".toList, 1, 0⟩], max_term_id := 0,
    forward_index := [⟨5, "Alpha".toList, 1, 1, [(0, 1)]⟩],
    term_to_barrel := [(0, "barrel_000".toList)], disk := [] }

/-- C7, counterexample: a document whose `doc_id` (5) already exists but
whose `player_name` is empty is rejected as `MissingField`, not
`DuplicateDocument` — the falsy-field check runs before the duplicate
check. -/
theorem C7_duplicate_counterexample :
    ((5 : Int) ∈ dupIndexes.forward_index.map (fun doc => doc.player_id)) ∧
      add_document ⟨some 5, [], "body".toList⟩ dupIndexes =
        (dupIndexes, .error .missingFields) ∧
      AddError.missingFields ≠ AddError.duplicate := by
  refine ⟨by decide, by decide, by decide⟩

/-- C7, amended: for every document whose `player_id` is present and truthy
(nonzero) and whose name is nonempty, if the `doc_id` already exists in the
forward index then `add_document` returns the duplicate error and the whole
state — in particular every lexicon `df` — is exactly the input state. -/
theorem C7_duplicate_amended (d : PlayerData) (st : Indexes) (pid : Int)
    (hpid : d.player_id = some pid) (hz : pid ≠ 0) (hname : d.player_name ≠ [])
    (hdup : pid ∈ st.forward_index.map (fun doc => doc.player_id)) :
    add_document d st = (st, .error .duplicate) := by
  have h1 : (decide (pid = 0) || d.player_name.isEmpty) = false := by
    simp [hz, hname]
  have h2 : st.forward_index.any (fun doc => doc.player_id == pid) = true := by
    rw [List.any_eq_true]
    obtain ⟨doc, hdoc, hpe⟩ := List.mem_map.mp hdup
    exact ⟨doc, hdoc, by simp [hpe]⟩
  simp [add_document, hpid, h1, h2]

/-- C7, witness: the amended statement at a concrete duplicate insert. -/
theorem C7_duplicate_witness :
    add_document ⟨some 5, "Beta".toList, "words".toList⟩ dupIndexes =
      (dupIndexes, .error .duplicate) :=
  C7_duplicate_amended ⟨some 5, "Beta".toList, "words".toList⟩ dupIndexes 5
    rfl (by decide) (by decide) (by decide)

/-! ## Claim C3: ranking -/

/-- Python's stable descending sort is a permutation of its input. -/
theorem pySortDesc_perm {α β : Type} [LinearOrder β] (key : α → β) (l : List α) :
    (pySortDesc key l).Perm l :=
  List.perm_insertionSort _ l

/-- Python's stable descending sort sorts by non-increasing key. -/
theorem pySortDesc_sorted {α β : Type} [LinearOrder β] (key : α → β) (l : List α) :
    List.Sorted (fun a b => key b ≤ key a) (pySortDesc key l) := by
  haveI : IsTotal α (fun a b => key b ≤ key a) := ⟨fun a b => (le_total (key b) (key a))⟩
  haveI : IsTrans α (fun a b => key b ≤ key a) :=
    ⟨fun a b c hab hbc => le_trans hbc hab⟩
  exact List.sorted_insertionSort _ l

/-- Inserting an element whose key equals `s` puts it in front of the other
key-`s` elements and disturbs nothing else. -/
theorem filter_orderedInsert_eq {α β : Type} [LinearOrder β] (key : α → β)
    (s : β) (x : α) (hx : key x = s) :
    ∀ l : List α,
      (List.orderedInsert (fun a b => key b ≤ key a) x l).filter
          (fun a => decide (key a = s)) =
        x :: l.filter (fun a => decide (key a = s)) := by
  intro l
  induction l with
  | nil => simp [List.orderedInsert, hx]
  | cons y ys ih =>
    simp only [List.orderedInsert]
    by_cases hle : key y ≤ key x
    · rw [if_pos hle]
      simp [List.filter_cons, hx]
    · have hy : ¬ (key y = s) := by
        intro hys
        exact hle (by rw [hx, ← hys])
      rw [if_neg hle, List.filter_cons, List.filter_cons]
      simp only [decide_eq_true_eq, if_neg hy, ih]

/-- Inserting an element whose key differs from `s` leaves the key-`s`
elements untouched. -/
theorem filter_orderedInsert_ne {α β : Type} [LinearOrder β] (key : α → β)
    (s : β) (x : α) (hx : key x ≠ s) :
    ∀ l : List α,
      (List.orderedInsert (fun a b => key b ≤ key a) x l).filter
          (fun a => decide (key a = s)) =
        l.filter (fun a => decide (key a = s)) := by
  intro l
  induction l with
  | nil => simp [List.orderedInsert, hx]
  | cons y ys ih =>
    simp only [List.orderedInsert]
    by_cases hle : key y ≤ key x
    · rw [if_pos hle]
      simp [List.filter_cons, hx]
    · rw [if_neg hle, List.filter_cons, List.filter_cons, ih]

/-- Stability of Python's sort: restricted to any fixed key value, the
sorted list lists exactly the input's elements, in input order. -/
theorem pySortDesc_stable {α β : Type} [LinearOrder β] (key : α → β) (s : β)
    (l : List α) :
    (pySortDesc key l).filter (fun a => decide (key a = s)) =
      l.filter (fun a => decide (key a = s)) := by
  induction l with
  | nil => rfl
  | cons x xs ih =>
    show (List.orderedInsert _ x (pySortDesc key xs)).filter _ = _
    by_cases hx : key x = s
    · rw [filter_orderedInsert_eq key s x hx, ih, List.filter_cons,
        if_pos (by simp [hx])]
    · rw [filter_orderedInsert_ne key s x hx, ih, List.filter_cons,
        if_neg (by simp [hx])]

/-- The document/score column of `rank_results` is the truncated stable
sort. -/
theorem rank_results_map_snd {β : Type} [LinearOrder β]
    (scores : List (Int × β)) (top_k : Nat) :
    (rank_results scores top_k).map (fun t => t.2) =
      (pySortDesc (fun p => p.2) scores).take top_k := by
  unfold rank_results
  rw [List.map_map]
  have h : ((fun t : Nat × Int × β => t.2) ∘ fun p : Nat × (Int × β) => (p.1 + 1, p.2)) =
      Prod.snd := rfl
  rw [h, List.enum_map_snd]

/-- C3, counterexample: two documents with equal scores are returned in
score-accumulator insertion order (doc 5 before doc 3), not by ascending
`doc_id` as the claim states. -/
theorem C3_ranking_counterexample :
    rank_results [((5 : Int), (1 : ℚ)), ((3 : Int), (1 : ℚ))] 10 =
        [(1, 5, 1), (2, 3, 1)] ∧
      rank_results [((5 : Int), (1 : ℚ)), ((3 : Int), (1 : ℚ))] 10 ≠
        [(1, 3, 1), (2, 5, 1)] := by
  refine ⟨by decide, by decide⟩

/-- C3, amended: for every accumulated score list and every `top_k`, the
ranking step sorts by score descending (a *stable* sort, so score ties keep
the accumulator's insertion order rather than ascending doc_id), attaches
rank fields 1, 2, 3, … in order, and returns `min top_k n` results drawn
from the accumulator; restricted to any single score value, the output is a
prefix of the accumulator's entries with that score, in their original
order. -/
theorem C3_ranking_amended {β : Type} [LinearOrder β]
    (scores : List (Int × β)) (top_k : Nat) :
    List.Pairwise (fun a b => b.2 ≤ a.2)
        ((rank_results scores top_k).map fun t => t.2) ∧
      (rank_results scores top_k).map (fun t => t.1) =
        List.range' 1 (rank_results scores top_k).length ∧
      (rank_results scores top_k).length = min top_k scores.length ∧
      List.Subperm ((rank_results scores top_k).map fun t => t.2) scores ∧
      ∀ s : β, (((rank_results scores top_k).map fun t => t.2).filter
          (fun p => decide (p.2 = s))).IsPrefix
        (scores.filter (fun p => decide (p.2 = s))) := by
  refine ⟨?_, ?_, ?_, ?_, ?_⟩
  · rw [rank_results_map_snd]
    exact (pySortDesc_sorted (fun p : Int × β => p.2) scores).sublist
      (List.take_sublist _ _)
  · unfold rank_results
    rw [List.map_map]
    have h : ((fun t : Nat × Int × β => t.1) ∘ fun p : Nat × (Int × β) => (p.1 + 1, p.2)) =
        ((fun n => n + 1) ∘ Prod.fst) := rfl
    rw [h, ← List.map_map, List.enum_map_fst, List.length_map, List.enum_length,
      List.range'_eq_map_range]
    exact List.map_congr_left fun i hi => Nat.add_comm i 1
  · unfold rank_results
    rw [List.length_map, List.enum_length, List.length_take,
      (pySortDesc_perm (fun p : Int × β => p.2) scores).length_eq]
  · rw [rank_results_map_snd]
    exact ((List.take_sublist _ _).subperm).trans
      (pySortDesc_perm (fun p : Int × β => p.2) scores).subperm
  · intro s
    rw [rank_results_map_snd, ← pySortDesc_stable (fun p : Int × β => p.2) s scores]
    exact (List.take_prefix _ _).filter _

/-! ## Claim C8: BM25 monotonicity -/

/-- The BM25 idf argument simplifies to `(N + 1) / (df + 0.5)`. -/
theorem bm25_idf_arg (N df : ℝ) (h : 0 ≤ df) :
    (N - df + 0.5) / (df + 0.5) + 1.0 = (N + 1) / (df + 0.5) := by
  have hdf : df + (0.5 : ℝ) ≠ 0 := by positivity
  field_simp
  ring

/-- The BM25 tf-normalization denominator offset is positive. -/
theorem bm25_denom_pos (doc_len avg : ℝ) (hd : 0 < doc_len) (ha : 0 < avg) :
    0 < K1 * (1 - B + B * (doc_len / avg)) := by
  have hq : 0 < doc_len / avg := div_pos hd ha
  rw [K1, B]
  nlinarith

/-- C8: with `k1 = 1.2`, `b = 0.75`, fixing `N ≥ 1`, `doc_len > 0`,
`avg_doc_len > 0` and keeping `df` in its meaningful range `0 ≤ df ≤ N`, the
per-term BM25 score is non-decreasing in `tf` on `tf ≥ 0` and non-increasing
in `df`. -/
theorem C8_bm25_monotone :
    (∀ N df doc_len avg tf tf2 : ℝ, 1 ≤ N → 0 < doc_len → 0 < avg →
      0 ≤ df → df ≤ N → 0 ≤ tf → tf ≤ tf2 →
      bm25_score tf df doc_len N avg ≤ bm25_score tf2 df doc_len N avg) ∧
    (∀ N df df2 doc_len avg tf : ℝ, 1 ≤ N → 0 < doc_len → 0 < avg →
      0 ≤ tf → 0 ≤ df → df ≤ df2 → df2 ≤ N →
      bm25_score tf df2 doc_len N avg ≤ bm25_score tf df doc_len N avg) := by
  constructor
  · intro N df doc_len avg tf tf2 hN hd ha hdf0 hdfN htf h12
    unfold bm25_score
    rw [bm25_idf_arg N df hdf0]
    set C := K1 * (1 - B + B * (doc_len / avg)) with hC
    have hCpos : 0 < C := bm25_denom_pos doc_len avg hd ha
    have hK1 : (0 : ℝ) < K1 + 1 := by rw [K1]; norm_num
    have hlog : 0 ≤ Real.log ((N + 1) / (df + 0.5)) := by
      apply Real.log_nonneg
      rw [le_div_iff₀ (by positivity)]
      linarith
    apply mul_le_mul_of_nonneg_left _ hlog
    rw [div_le_div_iff₀ (by linarith) (by linarith)]
    nlinarith [mul_le_mul_of_nonneg_left h12 (le_of_lt (mul_pos hCpos hK1))]
  · intro N df df2 doc_len avg tf hN hd ha htf hdf0 hdd hdfN
    unfold bm25_score
    rw [bm25_idf_arg N df hdf0, bm25_idf_arg N df2 (le_trans hdf0 hdd)]
    set C := K1 * (1 - B + B * (doc_len / avg)) with hC
    have hCpos : 0 < C := bm25_denom_pos doc_len avg hd ha
    have hK1 : (0 : ℝ) < K1 + 1 := by rw [K1]; norm_num
    have hnorm : 0 ≤ tf * (K1 + 1) / (tf + C) :=
      div_nonneg (mul_nonneg htf (le_of_lt hK1)) (by linarith)
    apply mul_le_mul_of_nonneg_right _ hnorm
    apply Real.log_le_log (div_pos (by linarith) (by linarith))
    rw [div_le_div_iff₀ (by linarith) (by linarith)]
    nlinarith

/-- C8, witness: both monotonicity directions at concrete inputs
(`N = 2`, `doc_len = avg = 1`). -/
theorem C8_bm25_witness :
    bm25_score 1 1 1 2 1 ≤ bm25_score 2 1 1 2 1 ∧
      bm25_score 1 2 1 2 1 ≤ bm25_score 1 1 1 2 1 :=
  ⟨C8_bm25_monotone.1 2 1 1 1 1 2 (by norm_num) (by norm_num) (by norm_num)
      (by norm_num) (by norm_num) (by norm_num) (by norm_num),
   C8_bm25_monotone.2 2 1 2 1 1 1 (by norm_num) (by norm_num) (by norm_num)
      (by norm_num) (by norm_num) (by norm_num) (by norm_num)⟩

/-! ## Claim C1: bulk vs incremental equivalence -/

/-- The one-document corpus that separates the two build paths, as the bulk
pipeline reads it. -/
def divergenceBulkDoc : BulkDoc :=
  { player_id := 1, player_name := "Zidane".toList,
    detailed_content := "comprehensive plays".toList, current_club := none }

/-- The same document as `add_document` receives it. -/
def divergenceAddDoc : PlayerData :=
  { player_id := some 1, player_name := "Zidane".toList,
    detailed_content := "comprehensive plays".toList }

/-- C1: evaluation of both pipelines on the failing corpus
`[{id 1, name "Zidane", body "comprehensive plays"}]`.
The bulk lexicon keeps `"comprehensive"` (its smaller stop list does not
filter it) and never indexes the name, so it lacks `"zidane"`; the
incremental lexicon is `{"zidane", "play"}`.  Worse, the bulk forward-index
builder looks up *raw* words (`"plays"`) in the stemmed lexicon, so the
bulk inverted index has no posting at all for the term `"play"` (term_id 1),
while the incremental path stores the posting `doc 1 ↦ tf 1` for it — df
values and posting sets differ token by token, refuting the claimed
equivalence. -/
theorem C1_bulk_incremental_divergence :
    bulk_lexicon [divergenceBulkDoc] =
        [⟨"comprehensive".toList, 1, 0⟩, ⟨"play".toList, 1, 1⟩] ∧
      (add_document divergenceAddDoc bootIndexes).1.lexicon =
        [⟨"zidane".toList, 1, 1⟩, ⟨"play".toList, 1, 2⟩] ∧
      bulk_forward_index [divergenceBulkDoc] =
        [⟨1, "Zidane".toList, 1, 1, [(0, 1)]⟩] ∧
      bulk_postings [divergenceBulkDoc] 1 = [] ∧
      dGet (add_document divergenceAddDoc bootIndexes).1.disk ("barrel_000".toList) =
        some (FileState.good (Barrel.mk 2 2 ("barrel_000".toList)
          [(1, ⟨"zidane".toList, 1, [(1, ⟨1⟩)]⟩),
           (2, ⟨"play".toList, 1, [(1, ⟨1⟩)]⟩)])) ∧
      ("comprehensive".toList ∈ (bulk_lexicon [divergenceBulkDoc]).map fun e => e.token) ∧
      ("comprehensive".toList ∉
        ((add_document divergenceAddDoc bootIndexes).1.lexicon.map fun e => e.token)) := by
  refine ⟨by decide, by decide, by decide, by decide, by decide, by decide, by decide⟩

/-! ## Dictionary and decimal-formatting lemmas -/

/-- Unfolding lemma for `dGet` on a cons cell. -/
theorem dGet_cons {κ ν : Type} [DecidableEq κ] (k1 : κ) (v1 : ν)
    (rest : List (κ × ν)) (k : κ) :
    dGet ((k1, v1) :: rest) k = if k1 = k then some v1 else dGet rest k := rfl

/-- Unfolding lemma for `dGet` on the empty dict. -/
theorem dGet_nil {κ ν : Type} [DecidableEq κ] (k : κ) :
    dGet ([] : List (κ × ν)) k = none := rfl

/-- A binding found in the left part of an appended dict is found in the
whole. -/
theorem dGet_append_some {κ ν : Type} [DecidableEq κ] {l : List (κ × ν)}
    (l2 : List (κ × ν)) {k : κ} {v : ν} (h : dGet l k = some v) :
    dGet (l ++ l2) k = some v := by
  induction l with
  | nil => cases h
  | cons p rest ih =>
    obtain ⟨k1, v1⟩ := p
    rw [dGet_cons] at h
    rw [List.cons_append, dGet_cons]
    split at h
    · next hk => rw [if_pos hk]; exact h
    · next hk => rw [if_neg hk]; exact ih h

/-- Lookup misses exactly when no binding carries the key. -/
theorem dGet_none_iff {κ ν : Type} [DecidableEq κ] {l : List (κ × ν)} {k : κ} :
    dGet l k = none ↔ ∀ p ∈ l, p.1 ≠ k := by
  induction l with
  | nil => simp [dGet_nil]
  | cons p rest ih =>
    obtain ⟨k1, v1⟩ := p
    rw [dGet_cons]
    split
    · next hk => simp [hk]
    · next hk =>
      rw [ih]
      constructor
      · intro h q hq
        rw [List.mem_cons] at hq
        rcases hq with hq | hq
        · rw [hq]; exact hk
        · exact h q hq
      · intro h q hq
        exact h q (List.mem_cons_of_mem _ hq)

/-- A missing key stays missing after dropping cache entries. -/
theorem dGet_drop_one_none {κ ν : Type} [DecidableEq κ] {l : List (κ × ν)}
    {k : κ} (h : dGet l k = none) : dGet (l.drop 1) k = none := by
  rw [dGet_none_iff] at h ⊢
  intro p hp
  exact h p (List.mem_of_mem_drop hp)

/-- A missing key looks through an append. -/
theorem dGet_append_none {κ ν : Type} [DecidableEq κ] {l l2 : List (κ × ν)}
    {k : κ} (h : dGet l k = none) : dGet (l ++ l2) k = dGet l2 k := by
  induction l with
  | nil => rfl
  | cons p rest ih =>
    obtain ⟨k1, v1⟩ := p
    rw [dGet_cons] at h
    rw [List.cons_append, dGet_cons]
    split at h
    · cases h
    · next hk => rw [if_neg hk]; exact ih h

/-- `d[k] = v` makes `k` map to `v`. -/
theorem dGet_dSet_self {κ ν : Type} [DecidableEq κ] (l : List (κ × ν)) (k : κ)
    (v : ν) : dGet (dSet l k v) k = some v := by
  induction l with
  | nil => simp [dSet, dGet_cons]
  | cons p rest ih =>
    obtain ⟨k1, v1⟩ := p
    unfold dSet
    split
    · next hk => rw [dGet_cons, if_pos hk]
    · next hk => rw [dGet_cons, if_neg hk]; exact ih

/-- `d[k] = v` leaves other keys alone. -/
theorem dGet_dSet_ne {κ ν : Type} [DecidableEq κ] {l : List (κ × ν)}
    {k k2 : κ} (v : ν) (h : k ≠ k2) : dGet (dSet l k v) k2 = dGet l k2 := by
  induction l with
  | nil => simp [dSet, dGet_cons, dGet_nil, h]
  | cons p rest ih =>
    obtain ⟨k1, v1⟩ := p
    unfold dSet
    split
    · next hk => rw [dGet_cons, dGet_cons, if_neg (hk ▸ h), if_neg (hk ▸ h)]
    · next hk =>
      rw [dGet_cons, dGet_cons]
      split
      · rfl
      · exact ih

/-- `dUpdate` leaves other keys alone. -/
theorem dGet_dUpdate_ne {κ ν : Type} [DecidableEq κ] {l : List (κ × ν)}
    {k k2 : κ} (f : ν → ν) (h : k ≠ k2) :
    dGet (dUpdate l k f) k2 = dGet l k2 := by
  induction l with
  | nil => rfl
  | cons p rest ih =>
    obtain ⟨k1, v1⟩ := p
    unfold dUpdate
    split
    · next hk => rw [dGet_cons, dGet_cons, if_neg (hk ▸ h), if_neg (hk ▸ h)]
    · next hk =>
      rw [dGet_cons, dGet_cons]
      split
      · rfl
      · exact ih

/-- `dUpdate` applies the function to the bound value. -/
theorem dGet_dUpdate_self {κ ν : Type} [DecidableEq κ] {l : List (κ × ν)}
    {k : κ} {v : ν} (f : ν → ν) (h : dGet l k = some v) :
    dGet (dUpdate l k f) k = some (f v) := by
  induction l with
  | nil => cases h
  | cons p rest ih =>
    obtain ⟨k1, v1⟩ := p
    rw [dGet_cons] at h
    unfold dUpdate
    split at h
    · next hk =>
      injection h with h
      rw [if_pos hk, dGet_cons, if_pos hk, h]
    · next hk =>
      rw [if_neg hk, dGet_cons, if_neg hk]
      exact ih h

/-- A found binding is a member. -/
theorem dGet_mem {κ ν : Type} [DecidableEq κ] {l : List (κ × ν)} {k : κ}
    {v : ν} (h : dGet l k = some v) : (k, v) ∈ l := by
  induction l with
  | nil => cases h
  | cons p rest ih =>
    obtain ⟨k1, v1⟩ := p
    rw [dGet_cons] at h
    split at h
    · next hk =>
      injection h with h
      rw [← hk, ← h]
      exact List.mem_cons_self _ _
    · exact List.mem_cons_of_mem _ (ih h)

/-- `takeWhile` keeps a list all of whose elements satisfy the predicate. -/
theorem takeWhile_of_all {α : Type} (p : α → Bool) :
    ∀ l : List α, (∀ c ∈ l, p c = true) → l.takeWhile p = l := by
  intro l
  induction l with
  | nil => intro h; rfl
  | cons x xs ih =>
    intro h
    rw [List.takeWhile_cons, h x (by simp),
      ih fun c hc => h c (List.mem_cons_of_mem _ hc)]
    simp

/-- The digit characters and their code points. -/
theorem digitChar_toNat {d : Nat} (h : d < 10) :
    (Nat.digitChar d).toNat = 48 + d := by
  interval_cases d <;> rfl

/-- Digit characters are classified as digits. -/
theorem digitChar_isDigit {d : Nat} (h : d < 10) :
    (Nat.digitChar d).isDigit = true := by
  interval_cases d <;> rfl

/-- Digit characters are not underscores. -/
theorem digitChar_ne_underscore {d : Nat} (h : d < 10) :
    Nat.digitChar d ≠ '_' := by
  interval_cases d <;> decide

/-- Digit emission: shape of the emitted characters. -/
theorem natDecimalAux_digits :
    ∀ (fuel n : Nat), n < fuel →
      natDecimalAux fuel n ≠ [] ∧ ∀ c ∈ natDecimalAux fuel n, c.isDigit = true := by
  intro fuel
  induction fuel with
  | zero => intro n h; omega
  | succ fuel ih =>
    intro n h
    unfold natDecimalAux
    split
    · next h10 =>
      refine ⟨by simp, ?_⟩
      intro c hc
      rw [List.mem_singleton] at hc
      rw [hc]
      exact digitChar_isDigit h10
    · next h10 =>
      have hrec : n / 10 < fuel := by
        have := Nat.div_lt_self (by omega : 0 < n) (by omega : 1 < 10)
        omega
      obtain ⟨hne, hdig⟩ := ih (n / 10) hrec
      refine ⟨by simp [hne], ?_⟩
      intro c hc
      rw [List.mem_append] at hc
      rcases hc with hc | hc
      · exact hdig c hc
      · rw [List.mem_singleton] at hc
        rw [hc]
        exact digitChar_isDigit (Nat.mod_lt n (by omega))

/-- Digit emission: the emitted string evaluates back to the number under
`int()`'s accumulation, from any accumulator. -/
theorem natDecimalAux_foldl :
    ∀ (fuel n a : Nat), n < fuel →
      (natDecimalAux fuel n).foldl (fun acc c => acc * 10 + (c.toNat - '0'.toNat)) a =
        a * 10 ^ (natDecimalAux fuel n).length + n := by
  intro fuel
  induction fuel with
  | zero => intro n a h; omega
  | succ fuel ih =>
    intro n a h
    unfold natDecimalAux
    split
    · next h10 =>
      simp [List.foldl, digitChar_toNat h10]
    · next h10 =>
      have hrec : n / 10 < fuel := by
        have := Nat.div_lt_self (by omega : 0 < n) (by omega : 1 < 10)
        omega
      rw [List.foldl_append, ih (n / 10) a hrec]
      simp only [List.foldl, List.length_append, List.length_singleton]
      rw [digitChar_toNat (Nat.mod_lt n (by omega))]
      have h48 : '0'.toNat = 48 := rfl
      rw [h48]
      have hmod : 48 + n % 10 - 48 = n % 10 := by omega
      rw [hmod, pow_succ]
      have hdm := Nat.div_add_mod n 10
      ring_nf
      omega

/-- Leading zeros contribute nothing to `int()`'s accumulation. -/
theorem foldl_replicate_zero (k : Nat) :
    (List.replicate k '0').foldl (fun acc c => acc * 10 + (c.toNat - '0'.toNat)) 0 = 0 := by
  induction k with
  | zero => rfl
  | succ k ih =>
    rw [List.replicate_succ, List.foldl_cons]
    simpa using ih

/-- A digit character is not an underscore. -/
theorem isDigit_ne_underscore {c : Char} (h : c.isDigit = true) : c ≠ '_' := by
  intro hc
  rw [hc] at h
  cases h

/-- `int()` inverts zero-padded decimal formatting. -/
theorem pyInt_pad_decimal (k n : Nat) :
    pyInt (List.replicate k '0' ++ natDecimal n) = some n := by
  obtain ⟨hne, hdig⟩ := natDecimalAux_digits (n + 1) n (Nat.lt_succ_self n)
  have hall : (List.replicate k '0' ++ natDecimal n).all (fun c => c.isDigit) = true := by
    rw [List.all_eq_true]
    intro c hc
    rw [List.mem_append] at hc
    rcases hc with hc | hc
    · rw [List.eq_of_mem_replicate hc]; rfl
    · exact hdig c hc
  have hnonempty : (List.replicate k '0' ++ natDecimal n).isEmpty = false := by
    rw [List.isEmpty_eq_false_iff_exists_mem]
    obtain ⟨c, hc⟩ := List.exists_mem_of_ne_nil _ hne
    exact ⟨c, List.mem_append_right _ hc⟩
  unfold pyInt
  rw [hnonempty, hall]
  simp only [Bool.false_or, Bool.not_true, if_neg (by simp : ¬ (false : Bool) = true)]
  rw [List.foldl_append, foldl_replicate_zero]
  rw [show natDecimal n = natDecimalAux (n + 1) n from rfl,
    natDecimalAux_foldl (n + 1) n 0 (Nat.lt_succ_self n)]
  simp

/-- `int(bn.split('_')[1])` inverts `f"barrel_{idx:03d}"`. -/
theorem parse_mkBarrelName (i : Nat) : parseBarrelIdx (mkBarrelName i) = some i := by
  have hdrop : (mkBarrelName i).dropWhile (fun c => decide (c ≠ '_')) =
      '_' :: (List.replicate (3 - (natDecimal i).length) '0' ++ natDecimal i) := rfl
  have htake : ((List.replicate (3 - (natDecimal i).length) '0' ++ natDecimal i)).takeWhile
      (fun c => decide (c ≠ '_')) =
      List.replicate (3 - (natDecimal i).length) '0' ++ natDecimal i := by
    apply takeWhile_of_all
    intro c hc
    rw [List.mem_append] at hc
    rcases hc with hc | hc
    · rw [List.eq_of_mem_replicate hc]; rfl
    · obtain ⟨-, hdig⟩ := natDecimalAux_digits (i + 1) i (Nat.lt_succ_self i)
      simp [isDigit_ne_underscore (hdig c hc)]
  show pyInt (((mkBarrelName i).dropWhile (fun c => decide (c ≠ '_')) |>.drop 1).takeWhile
      (fun c => decide (c ≠ '_'))) = some i
  rw [hdrop]
  simp only [List.drop_succ_cons, List.drop_zero]
  rw [htake]
  exact pyInt_pad_decimal _ i

/-! ## Claim C6: corrupt/absent shards -/

/-- A cache hit bypasses the disk. -/
theorem load_barrel_cached {dk : List (List Char × FileState)} {cache : Cache}
    {name : List Char} {b : Barrel} (h : dGet cache name = some b) :
    load_barrel dk cache name = .ok (some b, cache) := by
  unfold load_barrel
  rw [h]

/-- A cache miss on an absent file returns `none` (the caught
`FileNotFoundError`). -/
theorem load_barrel_absent {dk : List (List Char × FileState)} {cache : Cache}
    {name : List Char} (hc : dGet cache name = none) (hd : dGet dk name = none) :
    load_barrel dk cache name = .ok (none, cache) := by
  unfold load_barrel
  rw [hc, hd]

/-- A cache miss on an unparseable file raises. -/
theorem load_barrel_corrupt {dk : List (List Char × FileState)} {cache : Cache}
    {name : List Char} (hc : dGet cache name = none)
    (hd : dGet dk name = some .corrupt) :
    load_barrel dk cache name = .error (.corruptShard name) := by
  unfold load_barrel
  rw [hc, hd]

/-- A cache miss on a good file loads and caches it. -/
theorem load_barrel_good {dk : List (List Char × FileState)} {cache : Cache}
    {name : List Char} {b : Barrel} (hc : dGet cache name = none)
    (hd : dGet dk name = some (.good b)) :
    load_barrel dk cache name =
      .ok (some b, (if MAX_CACHED_BARRELS ≤ cache.length then cache.drop 1
        else cache) ++ [(name, b)]) := by
  unfold load_barrel
  rw [hc, hd]

/-- If some required barrel is both uncached and corrupt on disk, the
barrel-loading loop raises a corrupt-shard error. -/
theorem load_required_corrupt {dk : List (List Char × FileState)} :
    ∀ (ns : List (List Char)) (cache : Cache),
      (∃ n ∈ ns, dGet cache n = none ∧ dGet dk n = some .corrupt) →
      ∃ n2, load_required dk ns cache = .error (.corruptShard n2) := by
  intro ns
  induction ns with
  | nil =>
    rintro cache ⟨n, hn, -⟩
    cases hn
  | cons n0 rest ih =>
    rintro cache ⟨n, hn, hcache, hdisk⟩
    rw [List.mem_cons] at hn
    rcases hn with rfl | hn
    · refine ⟨n, ?_⟩
      unfold load_required
      rw [load_barrel_corrupt hcache hdisk]
    · cases hc0 : dGet cache n0 with
      | some b =>
        obtain ⟨n2, hrec⟩ := ih cache ⟨n, hn, hcache, hdisk⟩
        refine ⟨n2, ?_⟩
        unfold load_required
        rw [load_barrel_cached hc0]
        show (match load_required dk rest cache with
          | .error e => (.error e : Except SearchErr (List (List Char × Barrel) × Cache))
          | .ok (loaded, cache2) => .ok ((n0, b) :: loaded, cache2)) = _
        rw [hrec]
      | none =>
        cases hd0 : dGet dk n0 with
        | none =>
          obtain ⟨n2, hrec⟩ := ih cache ⟨n, hn, hcache, hdisk⟩
          refine ⟨n2, ?_⟩
          unfold load_required
          rw [load_barrel_absent hc0 hd0]
          show load_required dk rest cache = _
          rw [hrec]
        | some fs =>
          cases fs with
          | corrupt =>
            refine ⟨n0, ?_⟩
            unfold load_required
            rw [load_barrel_corrupt hc0 hd0]
          | good b =>
            have hne : n0 ≠ n := by
              intro hh
              rw [hh, hdisk] at hd0
              cases hd0
            have hcache2 : dGet ((if MAX_CACHED_BARRELS ≤ cache.length then
                cache.drop 1 else cache) ++ [(n0, b)]) n = none := by
              rw [dGet_append_none]
              · rw [dGet_cons, if_neg hne, dGet_nil]
              · split
                · exact dGet_drop_one_none hcache
                · exact hcache
            obtain ⟨n2, hrec⟩ := ih _ ⟨n, hn, hcache2, hdisk⟩
            refine ⟨n2, ?_⟩
            unfold load_required
            rw [load_barrel_good hc0 hd0]
            show (match load_required dk rest ((if MAX_CACHED_BARRELS ≤ cache.length then
                cache.drop 1 else cache) ++ [(n0, b)]) with
              | .error e => (.error e : Except SearchErr (List (List Char × Barrel) × Cache))
              | .ok (loaded, cache2) => .ok ((n0, b) :: loaded, cache2)) = _
            rw [hrec]

/-- If every required barrel is uncached and absent, the loading loop
returns no barrels and an unchanged cache. -/
theorem load_required_absent {dk : List (List Char × FileState)} :
    ∀ (ns : List (List Char)) (cache : Cache),
      (∀ n ∈ ns, dGet cache n = none ∧ dGet dk n = none) →
      load_required dk ns cache = .ok ([], cache) := by
  intro ns
  induction ns with
  | nil => intro cache h; rfl
  | cons n0 rest ih =>
    intro cache h
    obtain ⟨hc0, hd0⟩ := h n0 (List.mem_cons_self _ _)
    unfold load_required
    rw [load_barrel_absent hc0 hd0]
    show load_required dk rest cache = _
    rw [ih cache fun n hn => h n (List.mem_cons_of_mem _ hn)]

/-- With no barrel loaded, the scoring loop contributes nothing. -/
theorem scoreTerms_loaded_nil (lex : List LexEntry) (fwd : List ForwardDoc)
    (routing : List (Nat × List Char)) (N : Nat) (avg : ℚ) :
    ∀ (tids : List Nat) (scores : List (Int × ℝ)),
      scoreTerms lex fwd routing [] N avg tids scores = .ok scores := by
  intro tids
  induction tids with
  | nil => intro scores; rfl
  | cons tid rest ih =>
    intro scores
    unfold scoreTerms
    dsimp only
    split
    · exact ih scores
    · split
      · exact ih scores
      · split
        · exact ih scores
        · exact ih scores

/-- The search state of the shard-failure scenarios: one document, one
term, routed to `barrel_000`. -/
def shardIdx (dk : List (List Char × FileState)) : SearchIndex :=
  { lexicon := [⟨"zidane".toList, 1, 0⟩],
    forward_index := [⟨1, "Zidane".toList, 1, 1, [(0, 1)]⟩],
    term_to_barrel := [(0, "barrel_000".toList)],
    disk := dk, market := [], profiles := [] }

/-- C6, counterexample: with the routing table pointing term 0 at
`barrel_000` and that barrel file absent, `search "zidane"` does not fail —
`load_barrel` catches the `FileNotFoundError`, the term's postings are
skipped, and the query returns the normal empty result. -/
theorem C6_shard_counterexample :
    tokens_to_term_ids (shardIdx []).lexicon (normalize_and_tokenize ("zidane".toList)) = [0] ∧
      dGet (shardIdx []).term_to_barrel 0 = some ("barrel_000".toList) ∧
      dGet (shardIdx []).disk ("barrel_000".toList) = none ∧
      search ("zidane".toList) 10 (shardIdx []) [] = .ok ([], []) := by
  refine ⟨by decide, by decide, by decide, rfl⟩

/-- Shape of a successful barrel-loop iteration: it only appends to the
routing table, and it writes exactly one barrel whose file was not corrupt
when read. -/
theorem processToken_ok_shape {pid : Int} {lex : List LexEntry}
    {rt : List (Nat × List Char)} {dk : List (List Char × FileState)}
    {upd : List (List Char)} {tok : List Char} {tf : Nat}
    {rt1 : List (Nat × List Char)} {dk1 : List (List Char × FileState)}
    {upd1 : List (List Char)}
    (h : processToken pid lex rt dk upd tok tf = .ok (rt1, dk1, upd1)) :
    (∃ suffix, rt1 = rt ++ suffix) ∧
      ∃ name0 b0, dk1 = dSet dk name0 (.good b0) ∧
        dGet dk name0 ≠ some FileState.corrupt := by
  unfold processToken at h
  dsimp only at h
  cases hrt : dGet rt ((tokenEntryLast lex tok).getD ⟨tok, 0, 0⟩).term_id with
  | some name1 =>
    rw [hrt] at h
    dsimp only at h
    cases hdk : dGet dk name1 with
    | none =>
      rw [hdk] at h
      dsimp only at h
      injection h with h
      injection h with h1 h
      injection h with h2 h3
      refine ⟨⟨[], ?_⟩, name1, _, h2.symm, by rw [hdk]; intro hh; cases hh⟩
      rw [← h1, List.append_nil]
    | some fs =>
      cases fs with
      | corrupt =>
        rw [hdk] at h
        dsimp only at h
        cases h
      | good b =>
        rw [hdk] at h
        dsimp only at h
        injection h with h
        injection h with h1 h
        injection h with h2 h3
        refine ⟨⟨[], ?_⟩, name1, _, h2.symm, by rw [hdk]; intro hh; cases hh⟩
        rw [← h1, List.append_nil]
  | none =>
    rw [hrt] at h
    dsimp only at h
    cases hp : parseAll (rt.map fun p => p.2) with
    | none =>
      rw [hp] at h
      dsimp only at h
      cases h
    | some l =>
      rw [hp] at h
      cases l with
      | nil =>
        dsimp only at h
        cases h
      | cons i is =>
        dsimp only at h
        cases hdk : dGet dk (mkBarrelName
            (((tokenEntryLast lex tok).getD ⟨tok, 0, 0⟩).term_id %
              (is.foldl Nat.max i + 1))) with
        | none =>
          rw [hdk] at h
          dsimp only at h
          injection h with h
          injection h with h1 h
          injection h with h2 h3
          exact ⟨⟨_, h1.symm⟩, _, _, h2.symm, by rw [hdk]; intro hh; cases hh⟩
        | some fs =>
          cases fs with
          | corrupt =>
            rw [hdk] at h
            dsimp only at h
            cases h
          | good b =>
            rw [hdk] at h
            dsimp only at h
            injection h with h
            injection h with h1 h
            injection h with h2 h3
            exact ⟨⟨_, h1.symm⟩, _, _, h2.symm, by rw [hdk]; intro hh; cases hh⟩

/-- If some token of the document is routed to a barrel whose file is
corrupt, the barrel loop raises. -/
theorem processTokens_corrupt (pid : Int) (lex : List LexEntry) :
    ∀ (tfs : List (List Char × Nat)) (rt : List (Nat × List Char))
      (dk : List (List Char × FileState)) (upd : List (List Char)),
      (∃ p ∈ tfs, ∃ name,
        dGet rt ((tokenEntryLast lex p.1).getD ⟨p.1, 0, 0⟩).term_id = some name ∧
          dGet dk name = some .corrupt) →
      (processTokens pid lex tfs rt dk upd).err.isSome = true := by
  intro tfs
  induction tfs with
  | nil =>
    rintro rt dk upd ⟨p, hp, -⟩
    cases hp
  | cons q rest ih =>
    obtain ⟨tok, tf⟩ := q
    rintro rt dk upd ⟨p, hp, name, hrt, hdk⟩
    rw [List.mem_cons] at hp
    unfold processTokens
    rcases hp with rfl | hp
    · dsimp only at hrt
      have hq : processToken pid lex rt dk upd tok tf = .error (.corruptShard name) := by
        unfold processToken
        dsimp only
        rw [hrt]
        dsimp only
        rw [hdk]
      rw [hq]
      rfl
    · cases hres : processToken pid lex rt dk upd tok tf with
      | error e => rfl
      | ok res =>
        obtain ⟨rt1, dk1, upd1⟩ := res
        show (processTokens pid lex rest rt1 dk1 upd1).err.isSome = true
        obtain ⟨⟨suffix, hsuf⟩, name0, b0, hdk1, hnc⟩ := processToken_ok_shape hres
        apply ih rt1 dk1 upd1
        refine ⟨p, hp, name, ?_, ?_⟩
        · rw [hsuf]
          exact dGet_append_some _ hrt
        · have hne : name0 ≠ name := fun hh => hnc (hh ▸ hdk)
          rw [hdk1, dGet_dSet_ne _ hne]
          exact hdk

/-- C6, amended: a barrel file whose JSON does not parse is fatal for the
affected operation — a query whose required barrels include an uncached
corrupt file raises, as does an `add_document` one of whose tokens is
routed to a corrupt file.  An *absent* barrel file is not fatal: search
skips the term's postings and proceeds (returning the normal empty result
when every required barrel is uncached and absent); `add_document`
scaffolds a fresh barrel instead. -/
theorem C6_shard_amended :
    (∀ (st : SearchIndex) (q : List Char) (k : Nat) (cache : Cache),
      (∃ n ∈ requiredBarrels st.term_to_barrel
          (tokens_to_term_ids st.lexicon (normalize_and_tokenize q)),
        dGet cache n = none ∧ dGet st.disk n = some .corrupt) →
      ∃ n2, search q k st cache = .error (.corruptShard n2)) ∧
    (∀ (d : PlayerData) (st : Indexes) (pid : Int),
      d.player_id = some pid → pid ≠ 0 → d.player_name ≠ [] →
      (st.forward_index.any fun doc => doc.player_id == pid) = false →
      addTokens d ≠ [] →
      (∃ p ∈ addTermFreq d,
        (dGet st.term_to_barrel (addTermId d st p.1)).map (fun name => dGet st.disk name) =
          some (some .corrupt)) →
      ∃ e, (add_document d st).2 = .error e) ∧
    (∀ (st : SearchIndex) (q : List Char) (k : Nat) (cache : Cache),
      (∀ n ∈ requiredBarrels st.term_to_barrel
          (tokens_to_term_ids st.lexicon (normalize_and_tokenize q)),
        dGet cache n = none ∧ dGet st.disk n = none) →
      search q k st cache = .ok ([], cache)) := by
  refine ⟨?_, ?_, ?_⟩
  · intro st q k cache hex
    obtain ⟨n2, hload⟩ := load_required_corrupt
      (requiredBarrels st.term_to_barrel
        (tokens_to_term_ids st.lexicon (normalize_and_tokenize q))) cache hex
    refine ⟨n2, ?_⟩
    have hne : (tokens_to_term_ids st.lexicon (normalize_and_tokenize q)).isEmpty = false := by
      cases htl : tokens_to_term_ids st.lexicon (normalize_and_tokenize q) with
      | nil =>
        exfalso
        obtain ⟨n, hn, -⟩ := hex
        rw [htl] at hn
        simp [requiredBarrels] at hn
      | cons a l => rfl
    unfold search
    dsimp only
    rw [hne, if_neg (by simp), hload]
  · intro d st pid hpid hz hname hnodup htokne hex
    obtain ⟨dpid, dname, dcontent⟩ := d
    dsimp only at hpid
    subst hpid
    obtain ⟨p, hp, hmap⟩ := hex
    rw [Option.map_eq_some'] at hmap
    obtain ⟨name, hrt, hdkc⟩ := hmap
    have hcor := processTokens_corrupt pid
      (addLexicon (⟨some pid, dname, dcontent⟩ : PlayerData) st)
      (addTermFreq (⟨some pid, dname, dcontent⟩ : PlayerData))
      st.term_to_barrel st.disk [] ⟨p, hp, name, hrt, hdkc⟩
    obtain ⟨e, he⟩ := Option.isSome_iff_exists.mp hcor
    refine ⟨e, ?_⟩
    have h1 : (decide (pid = 0) || dname.isEmpty) = false := by
      simp only [Bool.or_eq_false_iff, decide_eq_false_iff_not]
      exact ⟨hz, by simpa using hname⟩
    have h2 : (addTokens (⟨some pid, dname, dcontent⟩ : PlayerData)).isEmpty = false := by
      cases htl : addTokens (⟨some pid, dname, dcontent⟩ : PlayerData) with
      | nil => exact absurd htl htokne
      | cons a l => rfl
    simp only [add_document]
    rw [h1, hnodup, h2]
    rw [if_neg (by simp), if_neg (by simp), if_neg (by simp)]
    rw [he]
  · intro st q k cache hall
    cases htl : tokens_to_term_ids st.lexicon (normalize_and_tokenize q) with
    | nil =>
      unfold search
      dsimp only
      rw [htl]
      rfl
    | cons a l =>
      have hne : (tokens_to_term_ids st.lexicon (normalize_and_tokenize q)).isEmpty = false := by
        rw [htl]
        rfl
      have hld := @load_required_absent st.disk
        (requiredBarrels st.term_to_barrel
          (tokens_to_term_ids st.lexicon (normalize_and_tokenize q))) cache hall
      unfold search
      dsimp only
      rw [hne, if_neg (by simp), hld]
      dsimp only
      rw [scoreTerms_loaded_nil]
      rfl

/-- The bootstrapped index of the add-side corrupt-shard scenario: the token
`"zidane"` is already interned as term 3 and routed to `barrel_001`, whose
file does not parse. -/
def corruptAddIndexes : Indexes :=
  { lexicon := [⟨"zidane".toList, 1, 3⟩], max_term_id := 3, forward_index := [],
    term_to_barrel := [(3, "barrel_001".toList)],
    disk := [("barrel_001".toList, .corrupt)] }

/-- A new document whose only token is the already-routed `"zidane"`. -/
def corruptAddDoc : PlayerData :=
  { player_id := some 9, player_name := "Zidane".toList,
    detailed_content := "zidane".toList }

/-- C6, witness: the amended statement at concrete states — a corrupt
required barrel fails the search, a corrupt routed barrel fails the add,
and an absent barrel lets the search return normally. -/
theorem C6_shard_witness :
    (∃ n2, search ("zidane".toList) 10 (shardIdx [("barrel_000".toList, .corrupt)]) [] =
        .error (.corruptShard n2)) ∧
      (∃ e, (add_document corruptAddDoc corruptAddIndexes).2 = .error e) ∧
      search ("zidane".toList) 10 (shardIdx []) [] = .ok ([], []) :=
  ⟨C6_shard_amended.1 (shardIdx [("barrel_000".toList, .corrupt)]) ("zidane".toList) 10 []
      (by decide),
   C6_shard_amended.2.1 corruptAddDoc corruptAddIndexes 9 rfl (by decide) (by decide)
      (by decide) (by decide) (by decide),
   C6_shard_amended.2.2 (shardIdx []) ("zidane".toList) 10 [] (by decide)⟩

/-! ## Claim C9: shard assignment policy for new term ids -/

/-- The `token_to_entry` term id a token resolves to against a given
lexicon. -/
def lexTid (lex : List LexEntry) (tok : List Char) : Nat :=
  ((tokenEntryLast lex tok).getD ⟨tok, 0, 0⟩).term_id

/-- The maximum shard index parsed out of a routing table's shard names
(`max(int(bn.split('_')[1]) for bn in set(term_to_barrel.values()))`);
`none` when the table is empty or some name does not parse (the cases in
which the Python expression raises). -/
def routingMax (rt : List (Nat × List Char)) : Option Nat :=
  match parseAll (rt.map fun p => p.2) with
  | none => none
  | some [] => none
  | some (i :: is) => some (is.foldl Nat.max i)

/-- The barrel directory holds, in file `name`, a parsed barrel whose term
entry for `t` carries the posting `pid ↦ tf`. -/
def diskHasPosting (dk : List (List Char × FileState)) (name : List Char)
    (t : Nat) (pid : Int) (tf : Nat) : Prop :=
  ∃ b te, dGet dk name = some (.good b) ∧
    dGet b.inverted_index t = some te ∧ dGet te.postings pid = some ⟨tf⟩

/-- Destructuring of a defined `routingMax`. -/
theorem routingMax_eq_some {rt : List (Nat × List Char)} {M : Nat}
    (h : routingMax rt = some M) :
    ∃ i is, parseAll (rt.map fun p => p.2) = some (i :: is) ∧
      is.foldl Nat.max i = M := by
  unfold routingMax at h
  cases hp : parseAll (rt.map fun p => p.2) with
  | none => rw [hp] at h; cases h
  | some l =>
    cases l with
    | nil => rw [hp] at h; cases h
    | cons i is =>
      rw [hp] at h
      injection h with h
      exact ⟨i, is, rfl, h⟩

/-- `parseAll` distributes over append when both halves parse. -/
theorem parseAll_append {l1 l2 : List (List Char)} {xs ys : List Nat}
    (h1 : parseAll l1 = some xs) (h2 : parseAll l2 = some ys) :
    parseAll (l1 ++ l2) = some (xs ++ ys) := by
  induction l1 generalizing xs with
  | nil =>
    unfold parseAll at h1
    injection h1 with h1
    subst h1
    simpa using h2
  | cons n ns ih =>
    unfold parseAll at h1
    cases hpn : parseBarrelIdx n with
    | none => rw [hpn] at h1; cases h1
    | some i =>
      rw [hpn] at h1
      cases hpns : parseAll ns with
      | none => rw [hpns] at h1; cases h1
      | some isx =>
        rw [hpns] at h1
        injection h1 with h1
        subst h1
        show (match parseBarrelIdx n, parseAll (ns ++ l2) with
          | some i, some is => some (i :: is)
          | _, _ => none) = some ((i :: isx) ++ ys)
        rw [hpn, ih hpns]
        rfl

/-- Appending a binding to a parseable shard name whose index does not
exceed the current maximum leaves `routingMax` unchanged. -/
theorem routingMax_append {rt : List (Nat × List Char)} {M : Nat}
    (h : routingMax rt = some M) (t idx : Nat) (hidx : idx ≤ M) :
    routingMax (rt ++ [(t, mkBarrelName idx)]) = some M := by
  obtain ⟨i, is, hp, hf⟩ := routingMax_eq_some h
  have h1 : parseAll [mkBarrelName idx] = some [idx] := by
    unfold parseAll
    rw [parse_mkBarrelName]
    rfl
  have h2 : parseAll ((rt ++ [(t, mkBarrelName idx)]).map fun p => p.2) =
      some ((i :: is) ++ [idx]) := by
    rw [List.map_append]
    exact parseAll_append hp h1
  unfold routingMax
  rw [h2]
  show some ((is ++ [idx]).foldl Nat.max i) = some M
  rw [List.foldl_append, hf]
  show some (Nat.max M idx) = some M
  exact congrArg some (Nat.max_eq_left hidx)

/-- After the in-place barrel update, the target term entry holds the new
posting `pid ↦ tf`. -/
theorem updateBarrel_tid (b : Barrel) (tid : Nat) (tok : List Char)
    (dfLex tf : Nat) (pid : Int) :
    ∃ te, dGet (updateBarrel b tid tok dfLex tf pid).inverted_index tid = some te ∧
      dGet te.postings pid = some ⟨tf⟩ := by
  show ∃ te,
    dGet (dUpdate (if (dGet b.inverted_index tid).isSome then b.inverted_index
        else b.inverted_index ++ [(tid, ⟨tok, dfLex, []⟩)]) tid
      (fun e => { e with postings := dSet e.postings pid ⟨tf⟩, df := dfLex })) tid =
        some te ∧ dGet te.postings pid = some ⟨tf⟩
  cases hcur : dGet b.inverted_index tid with
  | some e =>
    have h0 : dGet (if (some e : Option BarrelTerm).isSome then b.inverted_index
        else b.inverted_index ++ [(tid, ⟨tok, dfLex, []⟩)]) tid = some e := hcur
    exact ⟨_, dGet_dUpdate_self _ h0, dGet_dSet_self _ _ _⟩
  | none =>
    have h0 : dGet (if (none : Option BarrelTerm).isSome then b.inverted_index
        else b.inverted_index ++ [(tid, ⟨tok, dfLex, []⟩)]) tid =
        some ⟨tok, dfLex, []⟩ := by
      show dGet (b.inverted_index ++ [(tid, ⟨tok, dfLex, []⟩)]) tid = _
      rw [dGet_append_none hcur, dGet_cons, if_pos rfl]
    exact ⟨_, dGet_dUpdate_self _ h0, dGet_dSet_self _ _ _⟩

/-- The in-place barrel update leaves every other term entry unchanged. -/
theorem updateBarrel_ne (b : Barrel) (tid : Nat) (tok : List Char)
    (dfLex tf : Nat) (pid : Int) {t : Nat} (hne : tid ≠ t) :
    dGet (updateBarrel b tid tok dfLex tf pid).inverted_index t =
      dGet b.inverted_index t := by
  show dGet (dUpdate (if (dGet b.inverted_index tid).isSome then b.inverted_index
      else b.inverted_index ++ [(tid, ⟨tok, dfLex, []⟩)]) tid
    (fun e => { e with postings := dSet e.postings pid ⟨tf⟩, df := dfLex })) t = _
  rw [dGet_dUpdate_ne _ hne]
  cases hcur : dGet b.inverted_index tid with
  | some e =>
    rfl
  | none =>
    show dGet (b.inverted_index ++ [(tid, ⟨tok, dfLex, []⟩)]) t = _
    cases hc2 : dGet b.inverted_index t with
    | some v => exact dGet_append_some _ hc2
    | none =>
      rw [dGet_append_none hc2, dGet_cons, if_neg hne]
      rfl

/-- `bumpCount` keeps the key list when the key is present and otherwise
appends it. -/
theorem bumpCount_keys {α : Type} [DecidableEq α] (t : α) :
    ∀ acc : List (α × Nat),
      (bumpCount acc t).map (fun p => p.1) =
        if t ∈ acc.map (fun p => p.1) then acc.map (fun p => p.1)
        else acc.map (fun p => p.1) ++ [t] := by
  intro acc
  induction acc with
  | nil => simp [bumpCount]
  | cons q rest ih =>
    obtain ⟨k, v⟩ := q
    by_cases hk : k = t
    · subst hk
      unfold bumpCount
      rw [if_pos rfl]
      simp only [List.map_cons]
      rw [if_pos (List.mem_cons_self _ _)]
    · unfold bumpCount
      rw [if_neg hk]
      simp only [List.map_cons]
      rw [ih]
      by_cases hm : t ∈ rest.map fun p => p.1
      · rw [if_pos hm, if_pos (List.mem_cons_of_mem _ hm)]
      · have hnotin : t ∉ (k, v).1 :: rest.map (fun p => p.1) := by
          intro hmem
          rw [List.mem_cons] at hmem
          rcases hmem with h | h
          · exact hk h.symm
          · exact hm h
        rw [if_neg hm, if_neg hnotin]
        rfl

/-- The keys of a `countTokens` frequency table are duplicate-free. -/
theorem countTokens_keys_nodup {α : Type} [DecidableEq α] (toks : List α) :
    ((countTokens toks).map (fun p => p.1)).Nodup := by
  unfold countTokens
  suffices hgen : ∀ (l : List α) (acc : List (α × Nat)),
      (acc.map (fun p => p.1)).Nodup →
        ((l.foldl bumpCount acc).map (fun p => p.1)).Nodup by
    exact hgen toks [] (by simp)
  intro l
  induction l with
  | nil => intro acc h; exact h
  | cons a rest ih =>
    intro acc h
    show ((rest.foldl bumpCount (bumpCount acc a)).map (fun p => p.1)).Nodup
    apply ih
    rw [bumpCount_keys]
    by_cases hm : a ∈ acc.map fun p => p.1
    · rw [if_pos hm]; exact h
    · rw [if_neg hm]
      rw [List.nodup_append]
      refine ⟨h, List.nodup_singleton a, ?_⟩
      intro x hx hx2
      rw [List.mem_singleton] at hx2
      subst hx2
      exact hm hx

/-- Shape of a successful loop iteration, with the loaded barrel and the
written barrel made explicit: the routing table is unchanged or gains the
token's binding, and the written file is the update of the loaded (or
scaffolded) barrel at the token's term id. -/
theorem processToken_ok_cases {pid : Int} {lex : List LexEntry}
    {rt : List (Nat × List Char)} {dk : List (List Char × FileState)}
    {upd : List (List Char)} {tok : List Char} {tf : Nat}
    {rt1 : List (Nat × List Char)} {dk1 : List (List Char × FileState)}
    {upd1 : List (List Char)}
    (h : processToken pid lex rt dk upd tok tf = .ok (rt1, dk1, upd1)) :
    (rt1 = rt ∨ ∃ nm0, rt1 = rt ++ [(lexTid lex tok, nm0)]) ∧
      ∃ nm1 b0,
        (dGet dk nm1 = some (.good b0) ∨ (dGet dk nm1 = none ∧ b0 = emptyBarrel nm1)) ∧
        dk1 = dSet dk nm1 (.good (updateBarrel b0 (lexTid lex tok) tok
          ((tokenEntryLast lex tok).getD ⟨tok, 0, 0⟩).df tf pid)) := by
  unfold processToken at h
  dsimp only at h
  cases hrt : dGet rt ((tokenEntryLast lex tok).getD ⟨tok, 0, 0⟩).term_id with
  | some name =>
    rw [hrt] at h
    dsimp only at h
    cases hdk : dGet dk name with
    | none =>
      rw [hdk] at h
      dsimp only at h
      injection h with h
      injection h with h1 h
      injection h with h2 h3
      exact ⟨Or.inl h1.symm, name, _, Or.inr ⟨hdk, rfl⟩, h2.symm⟩
    | some fs =>
      cases fs with
      | corrupt => rw [hdk] at h; dsimp only at h; cases h
      | good b =>
        rw [hdk] at h
        dsimp only at h
        injection h with h
        injection h with h1 h
        injection h with h2 h3
        exact ⟨Or.inl h1.symm, name, b, Or.inl hdk, h2.symm⟩
  | none =>
    rw [hrt] at h
    dsimp only at h
    cases hp : parseAll (rt.map fun p => p.2) with
    | none => rw [hp] at h; dsimp only at h; cases h
    | some l =>
      rw [hp] at h
      cases l with
      | nil => dsimp only at h; cases h
      | cons i is =>
        dsimp only at h
        cases hdk : dGet dk (mkBarrelName
            (((tokenEntryLast lex tok).getD ⟨tok, 0, 0⟩).term_id %
              (is.foldl Nat.max i + 1))) with
        | none =>
          rw [hdk] at h
          dsimp only at h
          injection h with h
          injection h with h1 h
          injection h with h2 h3
          exact ⟨Or.inr ⟨_, h1.symm⟩, _, _, Or.inr ⟨hdk, rfl⟩, h2.symm⟩
        | some fs =>
          cases fs with
          | corrupt => rw [hdk] at h; dsimp only at h; cases h
          | good b =>
            rw [hdk] at h
            dsimp only at h
            injection h with h
            injection h with h1 h
            injection h with h2 h3
            exact ⟨Or.inr ⟨_, h1.symm⟩, _, b, Or.inl hdk, h2.symm⟩

/-- A loop iteration for a token whose term id is absent from the routing
table assigns shard `tid mod (M + 1)`, `M` the maximum existing shard
index: the routing table gains exactly that binding and the posting lands
in that barrel. -/
theorem processToken_new {pid : Int} {lex : List LexEntry}
    {rt : List (Nat × List Char)} {dk : List (List Char × FileState)}
    {upd : List (List Char)} {tok : List Char} {tf : Nat}
    {rt1 : List (Nat × List Char)} {dk1 : List (List Char × FileState)}
    {upd1 : List (List Char)} {M : Nat}
    (hmax : routingMax rt = some M)
    (hnew : dGet rt (lexTid lex tok) = none)
    (h : processToken pid lex rt dk upd tok tf = .ok (rt1, dk1, upd1)) :
    rt1 = rt ++ [(lexTid lex tok, mkBarrelName (lexTid lex tok % (M + 1)))] ∧
      diskHasPosting dk1 (mkBarrelName (lexTid lex tok % (M + 1)))
        (lexTid lex tok) pid tf := by
  obtain ⟨i, is, hp, hf⟩ := routingMax_eq_some hmax
  unfold processToken at h
  dsimp only at h
  rw [show dGet rt ((tokenEntryLast lex tok).getD ⟨tok, 0, 0⟩).term_id = none
    from hnew] at h
  dsimp only at h
  rw [hp] at h
  dsimp only at h
  rw [hf] at h
  cases hdk : dGet dk (mkBarrelName
      (((tokenEntryLast lex tok).getD ⟨tok, 0, 0⟩).term_id % (M + 1))) with
  | none =>
    rw [hdk] at h
    dsimp only at h
    injection h with h
    injection h with h1 h
    injection h with h2 h3
    refine ⟨h1.symm, updateBarrel (emptyBarrel
      (mkBarrelName (lexTid lex tok % (M + 1)))) (lexTid lex tok) tok
      ((tokenEntryLast lex tok).getD ⟨tok, 0, 0⟩).df tf pid, ?_⟩
    obtain ⟨te, hte, htep⟩ := updateBarrel_tid (emptyBarrel
      (mkBarrelName (lexTid lex tok % (M + 1)))) (lexTid lex tok) tok
      ((tokenEntryLast lex tok).getD ⟨tok, 0, 0⟩).df tf pid
    refine ⟨te, ?_, hte, htep⟩
    rw [← h2]
    exact dGet_dSet_self _ _ _
  | some fs =>
    cases fs with
    | corrupt => rw [hdk] at h; dsimp only at h; cases h
    | good b =>
      rw [hdk] at h
      dsimp only at h
      injection h with h
      injection h with h1 h
      injection h with h2 h3
      refine ⟨h1.symm, updateBarrel b (lexTid lex tok) tok
        ((tokenEntryLast lex tok).getD ⟨tok, 0, 0⟩).df tf pid, ?_⟩
      obtain ⟨te, hte, htep⟩ := updateBarrel_tid b (lexTid lex tok) tok
        ((tokenEntryLast lex tok).getD ⟨tok, 0, 0⟩).df tf pid
      refine ⟨te, ?_, hte, htep⟩
      rw [← h2]
      exact dGet_dSet_self _ _ _

/-- A successful loop iteration never changes the routing table's maximum
shard index: an existing term leaves the table alone and a new term is
assigned an index below the maximum. -/
theorem processToken_ok_routingMax {pid : Int} {lex : List LexEntry}
    {rt : List (Nat × List Char)} {dk : List (List Char × FileState)}
    {upd : List (List Char)} {tok : List Char} {tf : Nat}
    {rt1 : List (Nat × List Char)} {dk1 : List (List Char × FileState)}
    {upd1 : List (List Char)} {M : Nat}
    (hmax : routingMax rt = some M)
    (h : processToken pid lex rt dk upd tok tf = .ok (rt1, dk1, upd1)) :
    routingMax rt1 = some M := by
  have hle : lexTid lex tok % (M + 1) ≤ M :=
    Nat.lt_succ_iff.mp (Nat.mod_lt _ (Nat.succ_pos M))
  cases hrt : dGet rt (lexTid lex tok) with
  | some name =>
    obtain ⟨hroute, -⟩ := processToken_ok_cases h
    rcases hroute with rfl | ⟨nm0, rfl⟩
    · exact hmax
    · exfalso
      unfold processToken at h
      dsimp only at h
      rw [show dGet rt ((tokenEntryLast lex tok).getD ⟨tok, 0, 0⟩).term_id =
        some name from hrt] at h
      dsimp only at h
      cases hdk : dGet dk name with
      | none =>
        rw [hdk] at h
        dsimp only at h
        injection h with h
        injection h with h1 h
        simp at h1
      | some fs =>
        cases fs with
        | corrupt => rw [hdk] at h; dsimp only at h; cases h
        | good b =>
          rw [hdk] at h
          dsimp only at h
          injection h with h
          injection h with h1 h
          simp at h1
  | none =>
    obtain ⟨hr, hpost⟩ := processToken_new hmax hrt h
    rw [hr]
    exact routingMax_append hmax _ _ hle

/-- A successful loop iteration for a different term id preserves an
existing routing binding and an existing on-disk posting. -/
theorem processToken_preserve {pid : Int} {lex : List LexEntry}
    {rt : List (Nat × List Char)} {dk : List (List Char × FileState)}
    {upd : List (List Char)} {tok : List Char} {tf : Nat}
    {rt1 : List (Nat × List Char)} {dk1 : List (List Char × FileState)}
    {upd1 : List (List Char)} {t : Nat} {nm : List Char} {p2 : Int} {tfv : Nat}
    (h : processToken pid lex rt dk upd tok tf = .ok (rt1, dk1, upd1))
    (hne : lexTid lex tok ≠ t)
    (hrtb : dGet rt t = some nm)
    (hdp : diskHasPosting dk nm t p2 tfv) :
    dGet rt1 t = some nm ∧ diskHasPosting dk1 nm t p2 tfv := by
  obtain ⟨hroute, nm1, b0, hload, hdk1⟩ := processToken_ok_cases h
  constructor
  · rcases hroute with rfl | ⟨nm0, rfl⟩
    · exact hrtb
    · exact dGet_append_some _ hrtb
  · obtain ⟨b, te, hb, hte, htep⟩ := hdp
    by_cases hn : nm1 = nm
    · subst hn
      rcases hload with hl | ⟨hl, -⟩
      · rw [hb] at hl
        injection hl with hl
        injection hl with hl
        subst hl
        refine ⟨updateBarrel b (lexTid lex tok) tok
          ((tokenEntryLast lex tok).getD ⟨tok, 0, 0⟩).df tf pid, te, ?_, ?_, htep⟩
        · rw [hdk1]
          exact dGet_dSet_self _ _ _
        · rw [updateBarrel_ne _ _ _ _ _ _ hne]
          exact hte
      · rw [hb] at hl
        cases hl
    · refine ⟨b, te, ?_, hte, htep⟩
      rw [hdk1, dGet_dSet_ne _ hn]
      exact hb

/-- A successful loop iteration for a different term id keeps an absent
term id absent from the routing table. -/
theorem processToken_preserve_none {pid : Int} {lex : List LexEntry}
    {rt : List (Nat × List Char)} {dk : List (List Char × FileState)}
    {upd : List (List Char)} {tok : List Char} {tf : Nat}
    {rt1 : List (Nat × List Char)} {dk1 : List (List Char × FileState)}
    {upd1 : List (List Char)} {t : Nat}
    (h : processToken pid lex rt dk upd tok tf = .ok (rt1, dk1, upd1))
    (hne : lexTid lex tok ≠ t)
    (hno : dGet rt t = none) :
    dGet rt1 t = none := by
  obtain ⟨hroute, -⟩ := processToken_ok_cases h
  rcases hroute with rfl | ⟨nm0, rfl⟩
  · exact hno
  · rw [dGet_append_none hno, dGet_cons, if_neg hne]
    rfl

/-- Running the rest of the barrel loop preserves a routing binding and an
on-disk posting for a term id none of the remaining tokens resolves to,
whether or not the loop raises. -/
theorem processTokens_preserve (pid : Int) (lex : List LexEntry) :
    ∀ (tfs : List (List Char × Nat)) (rt : List (Nat × List Char))
      (dk : List (List Char × FileState)) (upd : List (List Char))
      {t : Nat} {nm : List Char} {p2 : Int} {tfv : Nat},
      (∀ q ∈ tfs, lexTid lex q.1 ≠ t) →
      dGet rt t = some nm →
      diskHasPosting dk nm t p2 tfv →
      dGet (processTokens pid lex tfs rt dk upd).routing t = some nm ∧
        diskHasPosting (processTokens pid lex tfs rt dk upd).disk nm t p2 tfv := by
  intro tfs
  induction tfs with
  | nil =>
    intro rt dk upd t nm p2 tfv _ h1 h2
    exact ⟨h1, h2⟩
  | cons q rest ih =>
    obtain ⟨tok0, tf0⟩ := q
    intro rt dk upd t nm p2 tfv hall h1 h2
    unfold processTokens
    cases hres : processToken pid lex rt dk upd tok0 tf0 with
    | error e => exact ⟨h1, h2⟩
    | ok res =>
      obtain ⟨rt1, dk1, upd1⟩ := res
      have hne0 : lexTid lex tok0 ≠ t := hall (tok0, tf0) (List.mem_cons_self _ _)
      obtain ⟨h1p, h2p⟩ := processToken_preserve hres hne0 h1 h2
      exact ih rt1 dk1 upd1 (fun q hq => hall q (List.mem_cons_of_mem _ hq)) h1p h2p

/-- The barrel loop, run to completion over tokens with duplicate-free
keys and injectively assigned term ids, routes every term id that was
absent from the routing table to shard `tid mod (M + 1)` — `M` the maximum
pre-existing shard index, which new assignments never raise — and records
the document's posting in that barrel. -/
theorem processTokens_new_spec (pid : Int) (lex : List LexEntry) (M : Nat) :
    ∀ (tfs : List (List Char × Nat)) (rt : List (Nat × List Char))
      (dk : List (List Char × FileState)) (upd : List (List Char)),
      routingMax rt = some M →
      ((tfs.map fun q => q.1).Nodup) →
      (∀ q1 ∈ tfs, ∀ q2 ∈ tfs, q1.1 ≠ q2.1 → lexTid lex q1.1 ≠ lexTid lex q2.1) →
      (processTokens pid lex tfs rt dk upd).err = none →
      ∀ p ∈ tfs, dGet rt (lexTid lex p.1) = none →
        dGet (processTokens pid lex tfs rt dk upd).routing (lexTid lex p.1) =
          some (mkBarrelName (lexTid lex p.1 % (M + 1))) ∧
        diskHasPosting (processTokens pid lex tfs rt dk upd).disk
          (mkBarrelName (lexTid lex p.1 % (M + 1))) (lexTid lex p.1) pid p.2 := by
  intro tfs
  induction tfs with
  | nil =>
    intro rt dk upd _ _ _ _ p hp
    cases hp
  | cons q rest ih =>
    obtain ⟨tok0, tf0⟩ := q
    intro rt dk upd hmax hnd hinj herr p hp hnew
    have hknotin : (tok0, tf0).1 ∉ rest.map (fun q => q.1) := (List.nodup_cons.mp hnd).1
    cases hres : processToken pid lex rt dk upd tok0 tf0 with
    | error e =>
      exfalso
      unfold processTokens at herr
      rw [hres] at herr
      dsimp only at herr
      cases herr
    | ok res =>
      obtain ⟨rt1, dk1, upd1⟩ := res
      have hrest : processTokens pid lex ((tok0, tf0) :: rest) rt dk upd =
          processTokens pid lex rest rt1 dk1 upd1 := by
        conv_lhs => rw [processTokens]
        rw [hres]
      rw [hrest] at herr ⊢
      have hmax1 : routingMax rt1 = some M := processToken_ok_routingMax hmax hres
      rw [List.mem_cons] at hp
      rcases hp with hp | hp
      · subst hp
        obtain ⟨hr1, hdp1⟩ := processToken_new hmax hnew hres
        have hr1b : dGet rt1 (lexTid lex tok0) =
            some (mkBarrelName (lexTid lex tok0 % (M + 1))) := by
          rw [hr1, dGet_append_none hnew, dGet_cons, if_pos rfl]
        have hall : ∀ q ∈ rest, lexTid lex q.1 ≠ lexTid lex tok0 := by
          intro q hq
          apply hinj q (List.mem_cons_of_mem _ hq) (tok0, tf0)
            (List.mem_cons_self _ _)
          intro hkeq
          exact hknotin (hkeq ▸ List.mem_map_of_mem (fun r => r.1) hq)
        exact processTokens_preserve pid lex rest rt1 dk1 upd1 hall hr1b hdp1
      · have hkne : lexTid lex tok0 ≠ lexTid lex p.1 := by
          apply hinj (tok0, tf0) (List.mem_cons_self _ _) p
            (List.mem_cons_of_mem _ hp)
          intro hkeq
          exact hknotin (hkeq ▸ List.mem_map_of_mem (fun r => r.1) hp)
        have hnew1 : dGet rt1 (lexTid lex p.1) = none :=
          processToken_preserve_none hres hkne hnew
        exact ih rt1 dk1 upd1 hmax1 (List.nodup_cons.mp hnd).2
          (fun q1 h1 q2 h2 hne => hinj q1 (List.mem_cons_of_mem _ h1) q2
            (List.mem_cons_of_mem _ h2) hne)
          herr p hp hnew1

/-- On a successful `add_document` the returned state's routing table and
barrel directory are the ones left by the barrel loop, and the loop raised
nothing. -/
theorem add_document_ok_pass {d : PlayerData} {st st2 : Indexes}
    {stats : AddStats} {pid : Int}
    (hpid : d.player_id = some pid)
    (h : add_document d st = (st2, .ok stats)) :
    st2.term_to_barrel =
        (processTokens pid (addLexicon d st) (addTermFreq d)
          st.term_to_barrel st.disk []).routing ∧
      st2.disk =
        (processTokens pid (addLexicon d st) (addTermFreq d)
          st.term_to_barrel st.disk []).disk ∧
      (processTokens pid (addLexicon d st) (addTermFreq d)
          st.term_to_barrel st.disk []).err = none := by
  obtain ⟨dpid, dname, dcontent⟩ := d
  dsimp only at hpid
  subst hpid
  simp only [add_document] at h
  split at h
  · injection h with h1 h2
    exact Except.noConfusion h2
  · split at h
    · injection h with h1 h2
      exact Except.noConfusion h2
    · split at h
      · injection h with h1 h2
        exact Except.noConfusion h2
      · split at h
        · injection h with h1 h2
          exact Except.noConfusion h2
        · injection h with h1 h2
          refine ⟨?_, ?_, ?_⟩
          · rw [← h1]
          · rw [← h1]
          · assumption

/-- C9: shard assignment policy.  On a successful `add_document` call over
a state whose routing table is non-empty with every shard name parseable
(maximum shard index `M`) and whose distinct document tokens resolve to
distinct term ids (as step 2 guarantees over a well-formed lexicon), every
token whose term id `t` was absent from the routing table is assigned
shard index `t mod (M + 1)`: the returned routing table maps `t` to the
shard name `barrel_{t mod (M+1):03d}` and that barrel file now holds the
document's posting for `t`. -/
theorem C9_shard_assignment {d : PlayerData} {st st2 : Indexes}
    {stats : AddStats} {pid : Int} {M : Nat}
    (hpid : d.player_id = some pid)
    (hmax : routingMax st.term_to_barrel = some M)
    (hinj : ∀ q1 ∈ addTermFreq d, ∀ q2 ∈ addTermFreq d,
      q1.1 ≠ q2.1 → addTermId d st q1.1 ≠ addTermId d st q2.1)
    (hrun : add_document d st = (st2, .ok stats)) :
    ∀ p ∈ addTermFreq d, dGet st.term_to_barrel (addTermId d st p.1) = none →
      dGet st2.term_to_barrel (addTermId d st p.1) =
        some (mkBarrelName (addTermId d st p.1 % (M + 1))) ∧
      diskHasPosting st2.disk (mkBarrelName (addTermId d st p.1 % (M + 1)))
        (addTermId d st p.1) pid p.2 := by
  obtain ⟨hroute, hdisk, herr⟩ := add_document_ok_pass hpid hrun
  intro p hp hnew
  have hnd : ((addTermFreq d).map fun q => q.1).Nodup :=
    countTokens_keys_nodup (addTokens d)
  have h := processTokens_new_spec pid (addLexicon d st) M (addTermFreq d)
    st.term_to_barrel st.disk [] hmax hnd hinj herr p hp hnew
  rw [hroute, hdisk]
  exact h

/-- C9, witness: adding `{id 1, name "Zidane", body "comprehensive plays"}`
to the bootstrapped index (routing table `{999 ↦ "barrel_000"}`, maximum
shard index 0) interns `"zidane"` with the fresh term id 1 and routes it to
shard `1 mod 1 = 0`: the returned routing table maps term 1 to
`barrel_000` and that barrel holds the posting `doc 1 ↦ tf 1`. -/
theorem C9_shard_witness :
    dGet (add_document divergenceAddDoc bootIndexes).1.term_to_barrel
        (addTermId divergenceAddDoc bootIndexes ("zidane".toList)) =
      some (mkBarrelName
        (addTermId divergenceAddDoc bootIndexes ("zidane".toList) % (0 + 1))) ∧
    diskHasPosting (add_document divergenceAddDoc bootIndexes).1.disk
      (mkBarrelName
        (addTermId divergenceAddDoc bootIndexes ("zidane".toList) % (0 + 1)))
      (addTermId divergenceAddDoc bootIndexes ("zidane".toList)) 1 1 :=
  C9_shard_assignment
    (show divergenceAddDoc.player_id = some 1 from rfl)
    (show routingMax bootIndexes.term_to_barrel = some 0 from by decide)
    (by decide)
    (show add_document divergenceAddDoc bootIndexes =
        ((add_document divergenceAddDoc bootIndexes).1, .ok ⟨2, 2, 2, 1⟩) from by decide)
    ("zidane".toList, 1) (by decide) (by decide)

/-! ## Claim C10: safety of the query path -/

/-- C10, counterexample: the state with one document (`total_terms = 1`),
term 0 routed to `barrel_000`, and that barrel file corrupt satisfies the
claim's conditions — the forward index is non-empty, every entry has
`total_terms ≥ 1`, and no barrel is ever loaded, so every loaded posting's
document is (vacuously) present — yet `search "zidane"` raises on the
unparseable barrel file instead of terminating normally. -/
theorem C10_safety_counterexample :
    ((shardIdx [("barrel_000".toList, FileState.corrupt)]).forward_index ≠ [] ∧
      (∀ doc ∈ (shardIdx [("barrel_000".toList, FileState.corrupt)]).forward_index,
        1 ≤ doc.total_terms) ∧
      (∀ name b, (dGet ([] : Cache) name = some b ∨
          dGet (shardIdx [("barrel_000".toList, FileState.corrupt)]).disk name =
            some (FileState.good b)) →
        ∀ pr ∈ b.inverted_index, ∀ po ∈ pr.2.postings,
          (doc_by_id (shardIdx [("barrel_000".toList, FileState.corrupt)]).forward_index
            po.1).isSome = true)) ∧
    search ("zidane".toList) 10 (shardIdx [("barrel_000".toList, FileState.corrupt)]) [] =
      .error (.corruptShard ("barrel_000".toList)) := by
  refine ⟨⟨by decide, by decide, ?_⟩, rfl⟩
  intro name b h
  rcases h with h | h
  · rw [dGet_nil] at h
    cases h
  · have h2 : dGet [("barrel_000".toList, FileState.corrupt)] name =
        some (FileState.good b) := h
    rw [dGet_cons] at h2
    by_cases hn : "barrel_000".toList = name
    · rw [if_pos hn] at h2
      injection h2 with h2
      exact FileState.noConfusion h2
    · rw [if_neg hn, dGet_nil] at h2
      cases h2

/-- Every posting of a barrel names a document present in `doc_by_id`: the
well-formedness of a barrel against a forward index. -/
def GoodB (fwd : List ForwardDoc) (b : Barrel) : Prop :=
  ∀ pr ∈ b.inverted_index, ∀ po ∈ pr.2.postings,
    (doc_by_id fwd po.1).isSome = true

/-- A non-empty forward index all of whose entries have at least one term
has a strictly positive average document length. -/
theorem avgDocLen_pos {fwd : List ForwardDoc} (hne : fwd ≠ [])
    (hlen : ∀ doc ∈ fwd, 1 ≤ doc.total_terms) : 0 < avgDocLen fwd := by
  obtain ⟨d0, rest, rfl⟩ := List.exists_cons_of_ne_nil hne
  have hN : 0 < Nval (d0 :: rest) := by
    have hmem : d0.player_id ∈ distinctDocIds (d0 :: rest) := by
      unfold distinctDocIds
      rw [mem_foldl_dedupInsert]
      right
      simp
    exact List.length_pos.mpr (List.ne_nil_of_mem hmem)
  unfold avgDocLen
  rw [if_pos hN]
  apply div_pos
  · have h1 : (1 : ℚ) ≤ (d0.total_terms : ℚ) := by
      exact_mod_cast hlen d0 (List.mem_cons_self _ _)
    have h2 : 0 ≤ (rest.map fun d => (d.total_terms : ℚ)).sum := by
      apply List.sum_nonneg
      intro x hx
      rw [List.mem_map] at hx
      obtain ⟨d, hd, rfl⟩ := hx
      positivity
    simp only [List.map_cons, List.sum_cons]
    linarith
  · exact_mod_cast hN

/-- `scores[doc_id] += x` keeps every key property satisfied by the old
keys and by `doc_id`. -/
theorem addScore_keys {P : Int → Prop} :
    ∀ (scores : List (Int × ℝ)) (did : Int) (x : ℝ),
      (∀ pr ∈ scores, P pr.1) → P did →
      ∀ pr ∈ addScore scores did x, P pr.1 := by
  intro scores
  induction scores with
  | nil =>
    intro did x hsc hd pr hpr
    rw [show addScore [] did x = [(did, x)] from rfl, List.mem_singleton] at hpr
    subst hpr
    exact hd
  | cons q rest ih =>
    obtain ⟨k, v⟩ := q
    intro did x hsc hd pr hpr
    unfold addScore at hpr
    by_cases hk : k = did
    · rw [if_pos hk, List.mem_cons] at hpr
      rcases hpr with rfl | hpr
      · exact hsc (k, v) (List.mem_cons_self _ _)
      · exact hsc pr (List.mem_cons_of_mem _ hpr)
    · rw [if_neg hk, List.mem_cons] at hpr
      rcases hpr with rfl | hpr
      · exact hsc (k, v) (List.mem_cons_self _ _)
      · exact ih did x (fun r hr => hsc r (List.mem_cons_of_mem _ hr)) hd pr hpr

/-- The postings loop succeeds when every posting's document is present and
the average document length is non-zero, and it only accumulates present
documents. -/
theorem scorePostings_ok {fwd : List ForwardDoc} {N : Nat} {avg : ℚ} {df : Nat}
    (havg : avg ≠ 0) :
    ∀ (posts : List (Int × Posting)) (scores : List (Int × ℝ)),
      (∀ po ∈ posts, (doc_by_id fwd po.1).isSome = true) →
      (∀ pr ∈ scores, (doc_by_id fwd pr.1).isSome = true) →
      ∃ scores1, scorePostings fwd N avg df posts scores = .ok scores1 ∧
        ∀ pr ∈ scores1, (doc_by_id fwd pr.1).isSome = true := by
  intro posts
  induction posts with
  | nil =>
    intro scores _ hsc
    exact ⟨scores, rfl, hsc⟩
  | cons q rest ih =>
    obtain ⟨did, p⟩ := q
    intro scores hpo hsc
    have hd : (doc_by_id fwd did).isSome = true := hpo (did, p) (List.mem_cons_self _ _)
    obtain ⟨doc, hdoc⟩ := Option.isSome_iff_exists.mp hd
    obtain ⟨scores1, hrun, hsc1⟩ := ih
      (addScore scores did (bm25_score (p.tf : ℝ) (df : ℝ) (doc.total_terms : ℝ)
        (N : ℝ) (avg : ℝ)))
      (fun po hpo2 => hpo po (List.mem_cons_of_mem _ hpo2))
      (@addScore_keys (fun i => (doc_by_id fwd i).isSome = true) scores did
        (bm25_score (p.tf : ℝ) (df : ℝ) (doc.total_terms : ℝ) (N : ℝ) (avg : ℝ))
        hsc hd)
    refine ⟨scores1, ?_, hsc1⟩
    unfold scorePostings
    rw [hdoc]
    dsimp only
    rw [if_neg havg]
    exact hrun

/-- The per-term scoring loop succeeds whenever every loaded barrel is
well-formed against the forward index and the average document length is
non-zero, and every accumulated document stays present in `doc_by_id`. -/
theorem scoreTerms_ok {lex : List LexEntry} {fwd : List ForwardDoc}
    {routing : List (Nat × List Char)} {loaded : List (List Char × Barrel)}
    {N : Nat} {avg : ℚ}
    (hload : ∀ pr ∈ loaded, GoodB fwd pr.2) (havg : avg ≠ 0) :
    ∀ (tids : List Nat) (scores : List (Int × ℝ)),
      (∀ pr ∈ scores, (doc_by_id fwd pr.1).isSome = true) →
      ∃ scores1, scoreTerms lex fwd routing loaded N avg tids scores = .ok scores1 ∧
        ∀ pr ∈ scores1, (doc_by_id fwd pr.1).isSome = true := by
  intro tids
  induction tids with
  | nil =>
    intro scores hsc
    exact ⟨scores, rfl, hsc⟩
  | cons tid rest ih =>
    intro scores hsc
    unfold scoreTerms
    dsimp only
    by_cases hdf : term_df lex tid = 0
    · rw [if_pos hdf]
      exact ih scores hsc
    · rw [if_neg hdf]
      cases hrt : dGet routing tid with
      | none => exact ih scores hsc
      | some name =>
        dsimp only
        by_cases hne : name.isEmpty
        · rw [if_pos hne]
          exact ih scores hsc
        · rw [if_neg hne]
          cases hld : dGet loaded name with
          | none => exact ih scores hsc
          | some b =>
            dsimp only
            cases htd : dGet b.inverted_index tid with
            | none => exact ih scores hsc
            | some td =>
              dsimp only
              have hgb : GoodB fwd b := hload (name, b) (dGet_mem hld)
              have hpo : ∀ po ∈ td.postings, (doc_by_id fwd po.1).isSome = true :=
                hgb (tid, td) (dGet_mem htd)
              obtain ⟨scores1, hrun, hsc1⟩ :=
                scorePostings_ok havg td.postings scores hpo hsc
              rw [hrun]
              exact ih scores1 hsc1

/-- When every barrel file on disk parses and is well-formed and every
cached barrel is well-formed, the barrel-loading loop succeeds and yields
only well-formed barrels (in the loaded list and in the updated cache). -/
theorem load_required_all_good {fwd : List ForwardDoc}
    {dk : List (List Char × FileState)}
    (hdk : ∀ p ∈ dk, ∃ b, p.2 = FileState.good b ∧ GoodB fwd b) :
    ∀ (ns : List (List Char)) (cache : Cache),
      (∀ pr ∈ cache, GoodB fwd pr.2) →
      ∃ loaded cache1, load_required dk ns cache = .ok (loaded, cache1) ∧
        (∀ pr ∈ loaded, GoodB fwd pr.2) ∧ (∀ pr ∈ cache1, GoodB fwd pr.2) := by
  intro ns
  induction ns with
  | nil =>
    intro cache hc
    exact ⟨[], cache, rfl, (by intro pr hpr; cases hpr), hc⟩
  | cons n rest ih =>
    intro cache hc
    unfold load_required
    unfold load_barrel
    cases hcn : dGet cache n with
    | some b =>
      dsimp only
      obtain ⟨loaded, cache1, hrun, hl, hc1⟩ := ih cache hc
      rw [hrun]
      refine ⟨(n, b) :: loaded, cache1, rfl, ?_, hc1⟩
      intro pr hpr
      rw [List.mem_cons] at hpr
      rcases hpr with rfl | hpr
      · exact hc (n, b) (dGet_mem hcn)
      · exact hl pr hpr
    | none =>
      dsimp only
      cases hdn : dGet dk n with
      | none =>
        dsimp only
        exact ih cache hc
      | some fs =>
        obtain ⟨b, hfs, hgb⟩ := hdk (n, fs) (dGet_mem hdn)
        dsimp only at hfs
        subst hfs
        dsimp only
        have hc2 : ∀ pr ∈ (if MAX_CACHED_BARRELS ≤ cache.length
            then cache.drop 1 else cache) ++ [(n, b)], GoodB fwd pr.2 := by
          intro pr hpr
          rw [List.mem_append] at hpr
          rcases hpr with hpr | hpr
          · split at hpr
            · exact hc pr (List.mem_of_mem_drop hpr)
            · exact hc pr hpr
          · rw [List.mem_singleton] at hpr
            subst hpr
            exact hgb
        obtain ⟨loaded, cache1, hrun, hl, hc1⟩ := ih _ hc2
        rw [hrun]
        refine ⟨(n, b) :: loaded, cache1, rfl, ?_, hc1⟩
        intro pr hpr
        rw [List.mem_cons] at hpr
        rcases hpr with rfl | hpr
        · exact hgb
        · exact hl pr hpr

/-- The result-building loop succeeds when every ranked document is present
in `doc_by_id`. -/
theorem buildResults_ok {fwd : List ForwardDoc} {market : List (Int × ℚ)} :
    ∀ rl : List (Nat × Int × ℝ),
      (∀ pr ∈ rl, (doc_by_id fwd pr.2.1).isSome = true) →
      ∃ res, buildResults fwd market rl = .ok res := by
  intro rl
  induction rl with
  | nil => intro _; exact ⟨[], rfl⟩
  | cons q rest ih =>
    obtain ⟨r, did, sc⟩ := q
    intro hall
    have hd := hall (r, did, sc) (List.mem_cons_self _ _)
    obtain ⟨doc, hdoc⟩ := Option.isSome_iff_exists.mp hd
    obtain ⟨res, hrun⟩ := ih (fun pr hpr => hall pr (List.mem_cons_of_mem _ hpr))
    refine ⟨⟨r, did, doc.player_name, sc, dGet market did⟩ :: res, ?_⟩
    unfold buildResults
    rw [hdoc]
    dsimp only
    rw [hrun]

/-- Every row of `rank_results` carries a document-score pair of the score
accumulator. -/
theorem mem_rank_results {β : Type} [LinearOrder β] {scores : List (Int × β)}
    {top_k : Nat} {pr : Nat × Int × β} (h : pr ∈ rank_results scores top_k) :
    pr.2 ∈ scores := by
  have h2 : pr.2 ∈ (rank_results scores top_k).map (fun t => t.2) :=
    List.mem_map_of_mem _ h
  rw [rank_results_map_snd] at h2
  have h3 : pr.2 ∈ pySortDesc (fun p => p.2) scores :=
    (List.take_sublist _ _).mem h2
  exact (pySortDesc_perm (fun p => p.2) scores).mem_iff.mp h3

/-- The market-value boost is defined whenever no market value is `≤ -1`
(`math.log1p` raises `ValueError` at or below `-1`). -/
theorem marketBoost_ok {st : SearchIndex} (did : Int)
    (hmkt : ∀ pr ∈ st.market, (-1 : ℚ) < pr.2) :
    ∃ x, marketBoost st did = .ok x := by
  unfold marketBoost
  cases hv : dGet st.market did with
  | none => exact ⟨0, rfl⟩
  | some v =>
    dsimp only
    by_cases hz : v = 0
    · rw [if_pos hz]
      exact ⟨0, rfl⟩
    · rw [if_neg hz]
      by_cases hlg : 0 < market_value_log_max st
      · rw [if_pos hlg, if_neg (not_le.mpr (hmkt (did, v) (dGet_mem hv)))]
        exact ⟨_, rfl⟩
      · rw [if_neg hlg]
        exact ⟨0, rfl⟩

/-- The per-document boost is defined whenever no market value is `≤ -1`. -/
theorem computeBoost_ok {st : SearchIndex} (query_tokens : List (List Char))
    (query_name raw_query_lower : List Char) (did : Int)
    (hmkt : ∀ pr ∈ st.market, (-1 : ℚ) < pr.2) :
    ∃ x, computeBoost st query_tokens query_name raw_query_lower did = .ok x := by
  unfold computeBoost
  cases hmeta : metaOf st.forward_index did with
  | none => exact ⟨_, rfl⟩
  | some meta =>
    dsimp only
    obtain ⟨x, hx⟩ := marketBoost_ok did hmkt
    rw [hx]
    split
    · exact ⟨_, rfl⟩
    · exact ⟨_, rfl⟩

/-- The boost loop succeeds whenever no market value is `≤ -1`, and it
keeps every key property of the score accumulator. -/
theorem boostPassAux_ok {st : SearchIndex} {P : Int → Prop}
    (query_tokens : List (List Char)) (query_name raw_query_lower : List Char)
    (hmkt : ∀ pr ∈ st.market, (-1 : ℚ) < pr.2) :
    ∀ scores : List (Int × ℝ), (∀ pr ∈ scores, P pr.1) →
      ∃ scores1,
        boostPassAux st query_tokens query_name raw_query_lower scores = .ok scores1 ∧
        ∀ pr ∈ scores1, P pr.1 := by
  intro scores
  induction scores with
  | nil =>
    intro _
    exact ⟨[], rfl, by intro pr hpr; cases hpr⟩
  | cons p rest ih =>
    intro hsc
    obtain ⟨x, hx⟩ := computeBoost_ok query_tokens query_name raw_query_lower p.1 hmkt
    obtain ⟨rest1, hrun, hr1⟩ := ih (fun r hr => hsc r (List.mem_cons_of_mem _ hr))
    refine ⟨(p.1, p.2 + x) :: rest1, ?_, ?_⟩
    · unfold boostPassAux
      rw [hx]
      dsimp only
      rw [hrun]
    · intro pr hpr
      rw [List.mem_cons] at hpr
      rcases hpr with rfl | hpr
      · exact hsc p (List.mem_cons_self _ _)
      · exact hr1 pr hpr

/-- C10, amended: the claim's conditions must additionally rule out
unparseable barrel files (JSON errors propagate, see C6) and negative
market values at or below `-1` (on which the boost pass raises a
`ValueError` out of `math.log1p`; `load_market_values` accepts any float).
Over any index state whose forward index is non-empty with every entry's
`total_terms ≥ 1`, in which every barrel file on disk parses, every disk or
cached barrel's postings name only documents of the forward index, and
every market value exceeds `-1`, the query path is safe: `avg_doc_len` is
strictly positive (so the BM25 division is defined), a query none of whose
tokens is in the lexicon returns the empty result without reaching the
scorer, and every search terminates normally with a result instead of
raising. -/
theorem C10_safety_amended (st : SearchIndex) (q : List Char) (top_k : Nat)
    (cache : Cache)
    (hfw : st.forward_index ≠ [])
    (hlen : ∀ doc ∈ st.forward_index, 1 ≤ doc.total_terms)
    (hdk : ∀ p ∈ st.disk, ∃ b, p.2 = FileState.good b ∧ GoodB st.forward_index b)
    (hc : ∀ pr ∈ cache, GoodB st.forward_index pr.2)
    (hmkt : ∀ pr ∈ st.market, (-1 : ℚ) < pr.2) :
    0 < avgDocLen st.forward_index ∧
    (tokens_to_term_ids st.lexicon (normalize_and_tokenize q) = [] →
      search q top_k st cache = .ok ([], cache)) ∧
    ∃ rs cache2, search q top_k st cache = .ok (rs, cache2) := by
  have havg : 0 < avgDocLen st.forward_index := avgDocLen_pos hfw hlen
  refine ⟨havg, ?_, ?_⟩
  · intro hterm
    unfold search
    dsimp only
    rw [hterm]
    rfl
  · by_cases hterm : (tokens_to_term_ids st.lexicon (normalize_and_tokenize q)).isEmpty
    · refine ⟨[], cache, ?_⟩
      unfold search
      dsimp only
      rw [if_pos hterm]
    · obtain ⟨loaded, cache1, hload, hl, hc1⟩ :=
        load_required_all_good hdk (requiredBarrels st.term_to_barrel
          (tokens_to_term_ids st.lexicon (normalize_and_tokenize q))) cache hc
      have havg0 : avgDocLen st.forward_index ≠ 0 := ne_of_gt havg
      obtain ⟨scores, hscore, hsc⟩ := scoreTerms_ok hl havg0
        (tokens_to_term_ids st.lexicon (normalize_and_tokenize q)) []
        (by intro pr hpr; cases hpr)
      unfold search
      dsimp only
      rw [if_neg hterm, hload]
      dsimp only
      rw [hscore]
      dsimp only
      by_cases hse : scores.isEmpty
      · rw [if_pos hse]
        dsimp only
        rw [if_pos hse]
        exact ⟨[], cache1, rfl⟩
      · rw [if_neg hse]
        obtain ⟨scores1, hboost, hsc1⟩ :=
          @boostPassAux_ok st (fun i => (doc_by_id st.forward_index i).isSome = true)
            (normalize_and_tokenize q) (joinSpace (normalize_name_tokens q))
            (pyStrip (q.map pyLower)) hmkt scores hsc
        rw [show boostPass st q (normalize_and_tokenize q) scores = .ok scores1
          from hboost]
        dsimp only
        by_cases hse1 : scores1.isEmpty
        · rw [if_pos hse1]
          exact ⟨[], cache1, rfl⟩
        · rw [if_neg hse1]
          have hrk : ∀ pr ∈ rank_results scores1 top_k,
              (doc_by_id st.forward_index pr.2.1).isSome = true := by
            intro pr hpr
            exact hsc1 pr.2 (mem_rank_results hpr)
          obtain ⟨res, hbuild⟩ := buildResults_ok _ hrk
          rw [hbuild]
          exact ⟨res, cache1, rfl⟩

/-- C10, witness: the amended safety statement instantiated at the
one-document state with an empty barrel directory, empty cache and empty
market table. -/
theorem C10_safety_witness :
    0 < avgDocLen (shardIdx []).forward_index ∧
    (tokens_to_term_ids (shardIdx []).lexicon
        (normalize_and_tokenize ("zidane".toList)) = [] →
      search ("zidane".toList) 10 (shardIdx []) [] = .ok ([], [])) ∧
    ∃ rs cache2, search ("zidane".toList) 10 (shardIdx []) [] = .ok (rs, cache2) :=
  C10_safety_amended (shardIdx []) ("zidane".toList) 10 [] (by decide) (by decide)
    (by intro p hp; cases hp) (by intro pr hpr; cases hpr)
    (by intro pr hpr; cases hpr)
